import Mathlib

/-!
Verification of the graph-traversal core of the ActorLink repository
(`src/link_finder.rs`): a bidirectional breadth-first search over the
actor/movie co-occurrence graph stored in SQLite, plus the path
reconstruction that joins the two search frontiers.

The store is modelled as two query functions (`moviesOf` mirrors
`get_movie_ids_for_actor`, `actorsOf` mirrors `get_actor_ids_for_movie`);
the Rust `HashSet` iteration order is captured by letting the store return
lists, and all theorems quantify over every store, hence over every
enumeration order.  The unbounded `while` loop of the Rust code is given a
fuel parameter; `none` marks fuel exhaustion (the Rust loop still running),
`some r` a terminated run with the Rust value `r : Option (List Int)`
(`Result` errors appear only in the `Except`-based variant below).
-/

/-- The relation store as consumed by `link_finder.rs`: `moviesOf a` is the
result set of `get_movie_ids_for_actor` and `actorsOf m` the result set of
`get_actor_ids_for_movie`, in the order the Rust `HashSet` yields them. -/
structure Store where
  moviesOf : Int → List Int
  actorsOf : Int → List Int

/-- One direction's mutable search state: `visited` is the visited set
(`forward_visited`/`backward_visited`), `queue` the FIFO frontier
(`forward_queue`/`backward_queue`, front at the head), and `pmap` the parent
map (`forward_path`/`backward_path`) as an association list, newest entry
first; keys are inserted only when fresh, so there is no shadowing. -/
structure Half where
  visited : List Int
  queue : List Int
  pmap : List (Int × Int)

/-- Association-list lookup, the model of `HashMap::get`. -/
def lookupP (pmap : List (Int × Int)) (k : Int) : Option Int :=
  match pmap with
  | [] => none
  | (a, b) :: rest => if k = a then some b else lookupP rest k

/-- Outcome of expanding part of a level: either an intersection node was
found (with the state at the moment of the early `return`), or expansion
ran to completion with an updated state. -/
inductive StepRes where
  | found (x : Int) (h : Half)
  | cont (h : Half)

/-- The innermost loop of `find_actor_link_bidirectional_bfs` (lines 52-63
and 75-86): visit each candidate neighbor of `cur`; if unvisited, mark it
visited, record its parent, enqueue it, and if it already belongs to the
other direction's visited set, stop with it as the intersection. -/
def visitNeighbors (cur : Int) (neighbors : List Int) (h : Half)
    (other : List Int) : StepRes :=
  match neighbors with
  | [] => .cont h
  | n :: rest =>
    if n ∈ h.visited then visitNeighbors cur rest h other
    else
      let h' : Half := ⟨n :: h.visited, h.queue ++ [n], (n, cur) :: h.pmap⟩
      if n ∈ other then .found n h'
      else visitNeighbors cur rest h' other

/-- The middle loop (lines 50-64 / 73-87): for each movie of the dequeued
actor `cur`, fetch its cast and visit those neighbors. -/
def visitMovies (s : Store) (cur : Int) (movies : List Int) (h : Half)
    (other : List Int) : StepRes :=
  match movies with
  | [] => .cont h
  | m :: rest =>
    match visitNeighbors cur (s.actorsOf m) h other with
    | .found x h' => .found x h'
    | .cont h' => visitMovies s cur rest h' other

/-- One full BFS level (lines 46-66 / 69-89): pop `count` nodes off the
frontier (`count` is snapshotted as the queue length before the level
starts) and expand each; `pop_front` on an empty queue skips the body, as
the Rust `if let Some` does. -/
def processLevel (s : Store) (count : Nat) (h : Half) (other : List Int) :
    StepRes :=
  match count with
  | 0 => .cont h
  | c + 1 =>
    match h.queue with
    | [] => processLevel s c h other
    | cur :: q =>
      match visitMovies s cur (s.moviesOf cur) ⟨h.visited, q, h.pmap⟩ other with
      | .found x h' => .found x h'
      | .cont h' => processLevel s c h' other

/-- Outcome of the outer `while` loop: fuel ran out (the Rust loop is still
running), a frontier emptied (line 92, `Ok(None)`), or an intersection was
found and `construct_path` is about to be called with the recorded maps. -/
inductive LoopOut where
  | fuelOut
  | noPath
  | intersect (x : Int) (fp bp : List (Int × Int))

/-- The outer `while` loop (lines 44-90): alternate a full forward level and
a full backward level while both frontiers are non-empty.  The backward
level checks membership in the forward visited set as updated by the
forward level of the same iteration, exactly as in the source. -/
def bfsLoop (s : Store) (fwd bwd : Half) : Nat → LoopOut
  | 0 => .fuelOut
  | fuel + 1 =>
    if fwd.queue.isEmpty || bwd.queue.isEmpty then .noPath
    else
      match processLevel s fwd.queue.length fwd bwd.visited with
      | .found x fwd' => .intersect x fwd'.pmap bwd.pmap
      | .cont fwd' =>
        match processLevel s bwd.queue.length bwd fwd'.visited with
        | .found x bwd' => .intersect x fwd'.pmap bwd'.pmap
        | .cont bwd' => bfsLoop s fwd' bwd' fuel

/-- One parent-map walk of `construct_path`: starting from `cur`, follow
parent entries until `stop` is reached, returning the parents in the order
they are pushed.  `some none` is the `return Ok(None)` taken when a lookup
fails (lines 112-115 / 126-129); `none` is fuel exhaustion, which on the
maps the engine builds never occurs (the fuel passed in `construct_path`
exceeds every possible chain length). -/
def collectChain (pmap : List (Int × Int)) (stop : Int) :
    Int → Nat → Option (Option (List Int))
  | _, 0 => none
  | cur, fuel + 1 =>
    if cur = stop then some (some [])
    else
      match lookupP pmap cur with
      | some p => Option.map (Option.map (fun l => p :: l)) (collectChain pmap stop p fuel)
      | none => some none

/-- `construct_path` (lines 96-135): walk from the intersection through the
forward map to `start`, reverse, then walk through the backward map to
`target` and append.  A failed lookup in either walk yields `Ok(None)`
(`some none` here), the same value as the not-found outcome. -/
def construct_path (inter : Int) (fp bp : List (Int × Int))
    (start target : Int) : Option (Option (List Int)) :=
  match collectChain fp start inter (fp.length + 1) with
  | none => none
  | some none => some none
  | some (some fchain) =>
    match collectChain bp target inter (bp.length + 1) with
    | none => none
    | some none => some none
    | some (some bchain) => some (some ((inter :: fchain).reverse ++ bchain))

/-- The initial state of one direction: origin visited and enqueued, empty
parent map (lines 32-42). -/
def initHalf (o : Int) : Half := ⟨[o], [o], []⟩

/-- `find_actor_link_bidirectional_bfs` (lines 27-93): equal endpoints short
circuit to the one-element path before any store access; otherwise run the
bidirectional search and, on intersection, reconstruct the path. -/
def find_actor_link_bidirectional_bfs (s : Store) (start target : Int)
    (fuel : Nat) : Option (Option (List Int)) :=
  if start = target then some (some [start])
  else
    match bfsLoop s (initHalf start) (initHalf target) fuel with
    | .fuelOut => none
    | .noPath => some none
    | .intersect x fp bp => construct_path x fp bp start target

/-- Two actors are linked when some movie of the first lists the second in
its cast: this is the edge the forward expansion traverses (lines 49-56). -/
def linked (s : Store) (u v : Int) : Prop :=
  ∃ m, m ∈ s.moviesOf u ∧ v ∈ s.actorsOf m

instance (s : Store) (u v : Int) : Decidable (linked s u v) := by
  unfold linked; infer_instance

/-- The store is a faithful view of one `movie_actors` link table: an actor
lists a movie exactly when the movie lists the actor. -/
def Coherent (s : Store) : Prop :=
  ∀ a m, m ∈ s.moviesOf a ↔ a ∈ s.actorsOf m

/-- Two actors share a movie (a Group containing both, in the spec's
vocabulary). -/
def sharesMovie (s : Store) (u v : Int) : Prop :=
  ∃ m, m ∈ s.moviesOf u ∧ m ∈ s.moviesOf v

/-- A walk of `n` shared-movie hops from `a` to `b` in the projected graph,
following the direction the store queries traverse. -/
inductive WalkLen (s : Store) : Int → Int → Nat → Prop
  | refl (a : Int) : WalkLen s a a 0
  | step {a b c : Int} {n : Nat} :
      linked s a b → WalkLen s b c n → WalkLen s a c (n + 1)

/-- The store with its fallibility made explicit: every query returns
`rusqlite::Result`, modelled by `Except`.  The pure `Store` is the special
case in which no call ever fails. -/
structure StoreE (ε : Type) where
  moviesOf : Int → Except ε (List Int)
  actorsOf : Int → Except ε (List Int)

/-- Expansion outcome when queries can fail: a store error cut the search
short (`?` at lines 49/51/72/74), an intersection was found, or the
expansion completed. -/
inductive StepResE (ε : Type) where
  | err (e : ε)
  | found (x : Int) (h : Half)
  | cont (h : Half)

/-- The movie loop with the `?` on `get_actor_ids_for_movie` (lines 51/74):
a failed cast query aborts at once with that error. -/
def visitMoviesE {ε : Type} (s : StoreE ε) (cur : Int) (movies : List Int)
    (h : Half) (other : List Int) : StepResE ε :=
  match movies with
  | [] => .cont h
  | m :: rest =>
    match s.actorsOf m with
    | .error e => .err e
    | .ok acts =>
      match visitNeighbors cur acts h other with
      | .found x h' => .found x h'
      | .cont h' => visitMoviesE s cur rest h' other

/-- One level with the `?` on `get_movie_ids_for_actor` (lines 49/72). -/
def processLevelE {ε : Type} (s : StoreE ε) (count : Nat) (h : Half)
    (other : List Int) : StepResE ε :=
  match count with
  | 0 => .cont h
  | c + 1 =>
    match h.queue with
    | [] => processLevelE s c h other
    | cur :: q =>
      match s.moviesOf cur with
      | .error e => .err e
      | .ok movies =>
        match visitMoviesE s cur movies ⟨h.visited, q, h.pmap⟩ other with
        | .err e => .err e
        | .found x h' => .found x h'
        | .cont h' => processLevelE s c h' other

/-- Outer-loop outcome over a fallible store. -/
inductive LoopOutE (ε : Type) where
  | fuelOut
  | noPath
  | err (e : ε)
  | intersect (x : Int) (fp bp : List (Int × Int))

/-- The outer loop over a fallible store: a store error anywhere propagates
out of the loop unchanged. -/
def bfsLoopE {ε : Type} (s : StoreE ε) (fwd bwd : Half) : Nat → LoopOutE ε
  | 0 => .fuelOut
  | fuel + 1 =>
    if fwd.queue.isEmpty || bwd.queue.isEmpty then .noPath
    else
      match processLevelE s fwd.queue.length fwd bwd.visited with
      | .err e => .err e
      | .found x fwd' => .intersect x fwd'.pmap bwd.pmap
      | .cont fwd' =>
        match processLevelE s bwd.queue.length bwd fwd'.visited with
        | .err e => .err e
        | .found x bwd' => .intersect x fwd'.pmap bwd'.pmap
        | .cont bwd' => bfsLoopE s fwd' bwd' fuel

/-- `find_actor_link_bidirectional_bfs` over a fallible store, with the
Rust result type `Result<Option<Vec<i64>>>` as `Except ε (Option _)`;
the outer `Option` again marks fuel exhaustion only. -/
def findE {ε : Type} (s : StoreE ε) (start target : Int) (fuel : Nat) :
    Option (Except ε (Option (List Int))) :=
  if start = target then some (.ok (some [start]))
  else
    match bfsLoopE s (initHalf start) (initHalf target) fuel with
    | .fuelOut => none
    | .noPath => some (.ok none)
    | .err e => some (.error e)
    | .intersect x fp bp =>
      match construct_path x fp bp start target with
      | none => none
      | some r => some (.ok r)

/-- A small concrete coherent store used by witnesses: movie 10 features
actors 1 and 2, movie 11 features actors 2 and 3; actor 4 appears nowhere. -/
def storeA : Store where
  moviesOf := fun a =>
    if a = 1 then [10] else if a = 2 then [10, 11] else if a = 3 then [11] else []
  actorsOf := fun m =>
    if m = 10 then [1, 2] else if m = 11 then [2, 3] else []

/-- `storeA` with infallible queries wrapped in `Except String`. -/
def storeAE : StoreE String where
  moviesOf := fun a => .ok (storeA.moviesOf a)
  actorsOf := fun m => .ok (storeA.actorsOf m)

/-- A store whose every query fails, modelling a dropped connection. -/
def storeFail : StoreE String where
  moviesOf := fun _ => .error "db gone"
  actorsOf := fun _ => .error "db gone"

/-- The symmetric closure of `linked`: the undirected edge of the projected
graph as it appears between consecutive path elements. -/
def eSym (s : Store) (u v : Int) : Prop := linked s u v ∨ linked s v u

/-- The parent chain recorded in a map: walking parent entries from `v`
stops at `o` and passes through the nodes of `l` in order (`l` is exactly
the list of parents a `construct_path` walk pushes). -/
inductive ChainL (pmap : List (Int × Int)) (o : Int) : Int → List Int → Prop
  | stop : ChainL pmap o o []
  | step {v p : Int} {l : List Int} : v ≠ o → lookupP pmap v = some p →
      ChainL pmap o p l → ChainL pmap o v (p :: l)

/-- A reconstruction walk that fails: starting from `v`, following parent
entries through the nodes of `l` in order without ever meeting `stop`, the
walk reaches a node that has no parent-map entry — the situation of the
missing-entry branches at lines 112-115 / 126-129. -/
inductive FailChain (pmap : List (Int × Int)) (stop : Int) : Int → List Int → Prop
  | here {v : Int} : v ≠ stop → lookupP pmap v = none → FailChain pmap stop v []
  | there {v p : Int} {l : List Int} : v ≠ stop → lookupP pmap v = some p →
      FailChain pmap stop p l → FailChain pmap stop v (p :: l)

/-- The parent-map shape invariant of the spec: no node maps to itself and
the search origin of the map's own direction is never a key. -/
def MapOk (o : Int) (pmap : List (Int × Int)) : Prop :=
  ∀ v p, lookupP pmap v = some p → v ≠ p ∧ v ≠ o

/-- Everything that holds of one direction's state at the top of the outer
loop after `c` completed levels: origin visited, visited set duplicate
free, frontier inside the visited set, parent entries well formed (key
visited and never the origin, parent visited, no self loop, parent adjacent
to child), every visited node's parent chain reaches the origin within `c`
steps, every node within `c` hops of the origin already visited, and every
visited node either fully expanded or still pending in the frontier. -/
structure DirInv (s : Store) (o : Int) (c : Nat) (h : Half) : Prop where
  origin_mem : o ∈ h.visited
  nodup : h.visited.Nodup
  queue_sub : ∀ v ∈ h.queue, v ∈ h.visited
  entry : ∀ v p, lookupP h.pmap v = some p →
    v ∈ h.visited ∧ v ≠ o ∧ p ∈ h.visited ∧ p ≠ v ∧ linked s p v
  chain_of : ∀ v ∈ h.visited, ∃ l, ChainL h.pmap o v l ∧ l.length ≤ c
  ball : ∀ v n, n ≤ c → WalkLen s o v n → v ∈ h.visited
  expanded : ∀ u ∈ h.visited, (∀ w, linked s u w → w ∈ h.visited) ∨ u ∈ h.queue

/-- Relation between the state before and after a completed (intersection
free) piece of expansion work in one direction: visited and parent map only
grow, old chains stay valid, and the structural invariant components hold
again afterwards (with parent chains now bounded by `c + 1`, the level
being built). -/
structure CorePost (s : Store) (o : Int) (c : Nat) (other : List Int)
    (h h' : Half) : Prop where
  vis_mono : ∀ v ∈ h.visited, v ∈ h'.visited
  lk_mono : ∀ v p, lookupP h.pmap v = some p → lookupP h'.pmap v = some p
  chain_keep : ∀ v l, ChainL h.pmap o v l → ChainL h'.pmap o v l
  nodup : h'.visited.Nodup
  queue_sub : ∀ v ∈ h'.queue, v ∈ h'.visited
  entry : ∀ v p, lookupP h'.pmap v = some p →
    v ∈ h'.visited ∧ v ≠ o ∧ p ∈ h'.visited ∧ p ≠ v ∧ linked s p v
  chain_of : ∀ v ∈ h'.visited, ∃ l, ChainL h'.pmap o v l ∧ l.length ≤ c + 1
  disj : ∀ v ∈ h'.visited, v ∉ other

/-- What holds at the instant the early `return` fires: the intersection
node is in the other side's visited set and in ours, parent entries are
well formed, every visited node's chain is bounded by the level being
built, and the intersection node is the only node the two sides share. -/
structure FoundPost (s : Store) (o : Int) (c : Nat) (other : List Int)
    (x : Int) (h' : Half) : Prop where
  x_other : x ∈ other
  x_vis : x ∈ h'.visited
  entry : ∀ v p, lookupP h'.pmap v = some p →
    v ∈ h'.visited ∧ v ≠ o ∧ p ∈ h'.visited ∧ p ≠ v ∧ linked s p v
  chain_of : ∀ v ∈ h'.visited, ∃ l, ChainL h'.pmap o v l ∧ l.length ≤ c + 1
  disjx : ∀ v ∈ h'.visited, v ≠ x → v ∉ other

/-! ### Theorems -/

/-- C8: for every store, every node `n`, and every fuel (including zero, so
before any traversal or store query could run), `findPath(n, n)` returns
the single-element path `[n]`. -/
theorem c8_self_path (s : Store) (n : Int) (fuel : Nat) :
    find_actor_link_bidirectional_bfs s n n fuel = some (some [n]) := by
  simp [find_actor_link_bidirectional_bfs]

/-- C1 counterexample: a failed parent-map lookup during reconstruction
(here: intersection 2 with empty maps, start 1, target 3) makes
`construct_path` return `Ok(None)` — literally the same value the engine
returns for the ordinary no-path outcome (exhibited on `storeA` for the
disconnected pair 1, 4) — not a distinct internal error. -/
theorem c1_counterexample :
    lookupP [] 2 = none ∧
    construct_path 2 [] [] 1 3 = some none ∧
    find_actor_link_bidirectional_bfs storeA 1 4 3 = some none :=
  ⟨rfl, rfl, by decide⟩

/-- A store error surfaced by the movie loop is the value of an actual cast
query on one of the movies it was iterating. -/
theorem visitMoviesE_err {ε : Type} {s : StoreE ε} {cur : Int}
    {movies : List Int} {h : Half} {other : List Int} {e : ε}
    (he : visitMoviesE s cur movies h other = .err e) :
    ∃ m, m ∈ movies ∧ s.actorsOf m = .error e := by
  induction movies generalizing h with
  | nil => simp [visitMoviesE] at he
  | cons m rest ih =>
    unfold visitMoviesE at he
    split at he
    next e' heq =>
      injection he with he'
      exact ⟨m, by simp, by rw [heq, he']⟩
    next acts heq =>
      split at he
      next => cases he
      next h' hv =>
        obtain ⟨m', hm', he'⟩ := ih he
        exact ⟨m', by simp [hm'], he'⟩

/-- A store error surfaced by a level is the value of an actual store
query. -/
theorem processLevelE_err {ε : Type} {s : StoreE ε} {count : Nat} {h : Half}
    {other : List Int} {e : ε}
    (he : processLevelE s count h other = .err e) :
    (∃ x, s.moviesOf x = .error e) ∨ (∃ m, s.actorsOf m = .error e) := by
  induction count generalizing h with
  | zero => simp [processLevelE] at he
  | succ c ih =>
    unfold processLevelE at he
    split at he
    next => exact ih he
    next cur q heq =>
      split at he
      next e' heq2 =>
        injection he with he'
        exact Or.inl ⟨cur, by rw [heq2, he']⟩
      next movies heq2 =>
        split at he
        next e' hv =>
          injection he with he'
          subst he'
          obtain ⟨m', _, he''⟩ := visitMoviesE_err hv
          exact Or.inr ⟨m', he''⟩
        next x h' hv => cases he
        next h' hv => exact ih he

/-- A store error surfaced by the outer loop is the value of an actual
store query. -/
theorem bfsLoopE_err {ε : Type} {s : StoreE ε} {fwd bwd : Half} {fuel : Nat}
    {e : ε} (he : bfsLoopE s fwd bwd fuel = .err e) :
    (∃ x, s.moviesOf x = .error e) ∨ (∃ m, s.actorsOf m = .error e) := by
  induction fuel generalizing fwd bwd with
  | zero => cases he
  | succ f ih =>
    unfold bfsLoopE at he
    split at he
    next => cases he
    next =>
      split at he
      next e' hf =>
        injection he with he'
        subst he'
        exact processLevelE_err hf
      next x fwd' hf => cases he
      next fwd' hf =>
        split at he
        next e' hb =>
          injection he with he'
          subst he'
          exact processLevelE_err hb
        next x bwd' hb => cases he
        next bwd' hb => exact ih he

/-- C7: store failures propagate unchanged and abort the whole search.
Every error `findPath` returns is the untouched value of an actual
adjacency query against the store; and if the very first adjacency query
(the movie lookup for `start`) fails, the search aborts at once with that
error — it is not treated as an empty neighbor set and no partial path is
returned. -/
theorem c7_store_failure_propagation {ε : Type} (s : StoreE ε) (a b : Int)
    (fuel : Nat) (e : ε) :
    (findE s a b fuel = some (.error e) →
       (∃ x, s.moviesOf x = .error e) ∨ (∃ m, s.actorsOf m = .error e)) ∧
    (a ≠ b → s.moviesOf a = .error e → 0 < fuel →
       findE s a b fuel = some (.error e)) := by
  constructor
  · intro he
    unfold findE at he
    split at he
    next => simp at he
    next hab =>
      split at he
      next => cases he
      next => simp at he
      next e' hl =>
        injection he with he'
        injection he' with he''
        subst he''
        exact bfsLoopE_err hl
      next x fp bp hl =>
        split at he
        next => cases he
        next r hc => injection he with he'; cases he'
  · intro hab hma hfuel
    obtain ⟨f, rfl⟩ : ∃ f, fuel = f + 1 :=
      ⟨fuel - 1, (Nat.succ_pred_eq_of_pos hfuel).symm⟩
    simp [findE, hab, bfsLoopE, initHalf, processLevelE, hma]

/-- C7 witness: on a store whose every query fails, the search aborts with
exactly that error, whose provenance the first conjunct recovers. -/
theorem c7_store_failure_propagation_witness :
    ((∃ x, storeFail.moviesOf x = Except.error "db gone") ∨
      (∃ m, storeFail.actorsOf m = Except.error "db gone")) ∧
    findE storeFail 1 2 1 = some (Except.error "db gone") :=
  ⟨(c7_store_failure_propagation storeFail 1 2 1 "db gone").1 rfl,
   (c7_store_failure_propagation storeFail 1 2 1 "db gone").2
     (by decide) rfl (by decide)⟩

/-! ### Parent-chain and walk lemmas -/

theorem lookupP_cons_self (k pv : Int) (rest : List (Int × Int)) :
    lookupP ((k, pv) :: rest) k = some pv := by simp [lookupP]

theorem lookupP_cons_ne {k v : Int} (pv : Int) (rest : List (Int × Int))
    (hne : v ≠ k) : lookupP ((k, pv) :: rest) v = lookupP rest v := by
  simp [lookupP, hne]

theorem lookupP_mem_keys {pmap : List (Int × Int)} {w q : Int}
    (h : lookupP pmap w = some q) : w ∈ pmap.map Prod.fst := by
  induction pmap with
  | nil => cases h
  | cons e rest ih =>
    obtain ⟨a, bb⟩ := e
    by_cases hw : w = a
    · simp [hw]
    · rw [lookupP_cons_ne _ _ hw] at h
      simp [ih h]

/-- Parent chains are deterministic: the map is a function and the walk
stops exactly at the origin. -/
theorem ChainL_determ {pmap : List (Int × Int)} {o v : Int} {l l' : List Int}
    (h1 : ChainL pmap o v l) (h2 : ChainL pmap o v l') : l = l' := by
  induction h1 generalizing l' with
  | stop =>
    cases h2 with
    | stop => rfl
    | step hne hlk hc => exact absurd rfl hne
  | step hne hlk hc ih =>
    cases h2 with
    | stop => exact absurd rfl hne
    | step hne2 hlk2 hc2 =>
      rw [hlk] at hlk2
      injection hlk2 with hp
      subst hp
      rw [ih hc2]

theorem ChainL_getLast {pmap : List (Int × Int)} {o v : Int} {l : List Int}
    (h : ChainL pmap o v l) : (v :: l).getLast? = some o := by
  induction h with
  | stop => rfl
  | step hne hlk hc ih => rw [List.getLast?_cons_cons]; exact ih

theorem ChainL_mem_chain {pmap : List (Int × Int)} {o v : Int} {l : List Int}
    (h : ChainL pmap o v l) :
    ∀ w ∈ v :: l, ∃ lw, ChainL pmap o w lw ∧ lw.length ≤ l.length := by
  induction h with
  | stop =>
    intro w hw
    simp only [List.mem_singleton] at hw
    subst hw
    exact ⟨[], .stop, le_refl _⟩
  | step hne hlk hc ih =>
    intro w hw
    rcases List.mem_cons.1 hw with rfl | hw'
    · exact ⟨_, .step hne hlk hc, le_refl _⟩
    · obtain ⟨lw, hcw, hlen⟩ := ih w hw'
      exact ⟨lw, hcw, hlen.trans (Nat.le_succ _)⟩

theorem ChainL_nodup {pmap : List (Int × Int)} {o v : Int} {l : List Int}
    (h : ChainL pmap o v l) : (v :: l).Nodup := by
  induction h with
  | stop => simp
  | step hne hlk hc ih =>
    refine List.nodup_cons.2 ⟨?_, ih⟩
    intro hv
    obtain ⟨lw, hcw, hlen⟩ := ChainL_mem_chain hc _ hv
    have := ChainL_determ (ChainL.step hne hlk hc) hcw
    subst this
    simp at hlen

theorem ChainL_mem_keyed {pmap : List (Int × Int)} {o v : Int} {l : List Int}
    (h : ChainL pmap o v l) :
    ∀ w ∈ v :: l, w ≠ o → ∃ q, lookupP pmap w = some q := by
  induction h with
  | stop =>
    intro w hw hne
    simp only [List.mem_singleton] at hw
    exact absurd hw hne
  | step hne hlk hc ih =>
    intro w hw hwo
    rcases List.mem_cons.1 hw with rfl | hw'
    · exact ⟨_, hlk⟩
    · exact ih w hw' hwo

/-- A parent chain can never be longer than the parent map itself: its
nodes other than the origin are distinct keys of the map. -/
theorem ChainL_length_le {pmap : List (Int × Int)} {o v : Int} {l : List Int}
    (h : ChainL pmap o v l) : l.length ≤ pmap.length := by
  classical
  have hnd := ChainL_nodup h
  have hlast := ChainL_getLast h
  have ho : o ∈ v :: l := by
    obtain ⟨hne, he⟩ := List.mem_getLast?_eq_getLast hlast
    exact he ▸ List.getLast_mem hne
  have hlen : ((v :: l).erase o).length + 1 = (v :: l).length :=
    List.length_erase_add_one ho
  have hsub : (v :: l).erase o ⊆ pmap.map Prod.fst := by
    intro w hw
    have hw' := (List.Nodup.mem_erase_iff hnd).1 hw
    obtain ⟨q, hq⟩ := ChainL_mem_keyed h w hw'.2 hw'.1
    exact lookupP_mem_keys hq
  have hnd' : ((v :: l).erase o).Nodup := hnd.erase o
  have hle : ((v :: l).erase o).length ≤ (pmap.map Prod.fst).length :=
    (List.subperm_of_subset hnd' hsub).length_le
  rw [List.length_map] at hle
  simp only [List.length_cons] at hlen
  omega

/-- Extending the map with a fresh key leaves every existing chain
intact. -/
theorem ChainL_extend {pmap : List (Int × Int)} {o v : Int} {l : List Int}
    (n pc : Int) (h : ChainL pmap o v l)
    (hfresh : ∀ w q, lookupP pmap w = some q → w ≠ n) :
    ChainL ((n, pc) :: pmap) o v l := by
  induction h with
  | stop => exact .stop
  | step hne hlk hc ih =>
    exact .step hne (by rw [lookupP_cons_ne _ _ (hfresh _ _ hlk)]; exact hlk) ih

/-- `construct_path`'s walk returns exactly the recorded parent chain when
given enough fuel. -/
theorem collectChain_eq {pmap : List (Int × Int)} {o v : Int} {l : List Int}
    (h : ChainL pmap o v l) :
    ∀ fuel, l.length < fuel → collectChain pmap o v fuel = some (some l) := by
  induction h with
  | stop =>
    intro fuel hf
    obtain ⟨f, rfl⟩ : ∃ f, fuel = f + 1 := ⟨fuel - 1, by omega⟩
    simp [collectChain]
  | step hne hlk hc ih =>
    intro fuel hf
    obtain ⟨f, rfl⟩ : ∃ f, fuel = f + 1 := ⟨fuel - 1, by omega⟩
    unfold collectChain
    rw [if_neg hne, hlk]
    simp [ih f (by simp only [List.length_cons] at hf; omega)]

theorem ChainL_chain' {pmap : List (Int × Int)} {o v : Int} {l : List Int}
    (h : ChainL pmap o v l) :
    List.Chain' (fun u w => lookupP pmap u = some w) (v :: l) := by
  induction h with
  | stop => simp
  | step hne hlk hc ih => exact List.chain'_cons.2 ⟨hlk, ih⟩

theorem ChainL_mem_subset {pmap : List (Int × Int)} {o v : Int} {l : List Int}
    {V : List Int} (h : ChainL pmap o v l)
    (hent : ∀ q p, lookupP pmap q = some p → p ∈ V) : ∀ w ∈ l, w ∈ V := by
  induction h with
  | stop => simp
  | step hne hlk hc ih =>
    intro w hw
    rcases List.mem_cons.1 hw with rfl | hw'
    · exact hent _ _ hlk
    · exact ih w hw'

theorem FailChain_determ {pmap : List (Int × Int)} {stop v : Int}
    {l l' : List Int} (h1 : FailChain pmap stop v l)
    (h2 : FailChain pmap stop v l') : l = l' := by
  induction h1 generalizing l' with
  | here hne hlk =>
    cases h2 with
    | here hne2 hlk2 => rfl
    | there hne2 hlk2 hc2 => rw [hlk] at hlk2; cases hlk2
  | there hne hlk hc ih =>
    cases h2 with
    | here hne2 hlk2 => rw [hlk] at hlk2; cases hlk2
    | there hne2 hlk2 hc2 =>
      rw [hlk] at hlk2
      injection hlk2 with hp
      subst hp
      rw [ih hc2]

theorem FailChain_mem_chain {pmap : List (Int × Int)} {stop v : Int}
    {l : List Int} (h : FailChain pmap stop v l) :
    ∀ w ∈ v :: l, ∃ lw, FailChain pmap stop w lw ∧ lw.length ≤ l.length := by
  induction h with
  | here hne hlk =>
    intro w hw
    simp only [List.mem_singleton] at hw
    subst hw
    exact ⟨[], .here hne hlk, le_refl _⟩
  | there hne hlk hc ih =>
    intro w hw
    rcases List.mem_cons.1 hw with rfl | hw'
    · exact ⟨_, .there hne hlk hc, le_refl _⟩
    · obtain ⟨lw, hcw, hlen⟩ := ih w hw'
      exact ⟨lw, hcw, hlen.trans (Nat.le_succ _)⟩

theorem FailChain_nodup {pmap : List (Int × Int)} {stop v : Int}
    {l : List Int} (h : FailChain pmap stop v l) : (v :: l).Nodup := by
  induction h with
  | here hne hlk => simp
  | there hne hlk hc ih =>
    refine List.nodup_cons.2 ⟨?_, ih⟩
    intro hv
    obtain ⟨lw, hcw, hlen⟩ := FailChain_mem_chain hc _ hv
    have heq := FailChain_determ (FailChain.there hne hlk hc) hcw
    subst heq
    simp at hlen

theorem FailChain_mem_keyed {pmap : List (Int × Int)} {stop v : Int}
    {l : List Int} (h : FailChain pmap stop v l) :
    ∀ w ∈ (v :: l).dropLast, ∃ q, lookupP pmap w = some q := by
  induction h with
  | here hne hlk =>
    intro w hw
    simp at hw
  | there hne hlk hc ih =>
    intro w hw
    rw [show ∀ (z y : Int) (t : List Int),
        (z :: y :: t).dropLast = z :: (y :: t).dropLast from
      fun _ _ _ => rfl] at hw
    rcases List.mem_cons.1 hw with rfl | hw'
    · exact ⟨_, hlk⟩
    · exact ih w hw'

/-- A failing walk also fits inside the map: every node it visits before
the failure point is a distinct key. -/
theorem FailChain_length_le {pmap : List (Int × Int)} {stop v : Int}
    {l : List Int} (h : FailChain pmap stop v l) : l.length ≤ pmap.length := by
  classical
  have hnd : ((v :: l).dropLast).Nodup :=
    (List.dropLast_sublist (v :: l)).nodup (FailChain_nodup h)
  have hsub : (v :: l).dropLast ⊆ pmap.map Prod.fst := by
    intro w hw
    obtain ⟨q, hq⟩ := FailChain_mem_keyed h w hw
    exact lookupP_mem_keys hq
  have hle := (List.subperm_of_subset hnd hsub).length_le
  rw [List.length_map, List.length_dropLast] at hle
  simpa using hle

/-- A reconstruction walk that hits a missing entry returns the `Ok(None)`
marker when given enough fuel. -/
theorem collectChain_fail {pmap : List (Int × Int)} {stop v : Int}
    {l : List Int} (h : FailChain pmap stop v l) :
    ∀ fuel, l.length < fuel → collectChain pmap stop v fuel = some none := by
  induction h with
  | here hne hlk =>
    intro fuel hf
    obtain ⟨f, rfl⟩ : ∃ f, fuel = f + 1 := ⟨fuel - 1, by omega⟩
    unfold collectChain
    rw [if_neg hne, hlk]
  | there hne hlk hc ih =>
    intro fuel hf
    obtain ⟨f, rfl⟩ : ∃ f, fuel = f + 1 := ⟨fuel - 1, by omega⟩
    unfold collectChain
    rw [if_neg hne, hlk]
    simp [ih f (by simp only [List.length_cons] at hf; omega)]

/-- C1 amended: if, at any point during either reconstruction walk, the
current node has no parent-map entry before the walk's endpoint is
reached — after any number of successful parent steps — `construct_path`
returns `Ok(None)`, the not-found value, silently conflating the
invariant violation with the no-path outcome. -/
theorem c1_amended_conflation (x a b : Int) (fp bp : List (Int × Int)) :
    (∀ l, FailChain fp a x l → construct_path x fp bp a b = some none) ∧
    (∀ lf l, ChainL fp a x lf → FailChain bp b x l →
      construct_path x fp bp a b = some none) := by
  constructor
  · intro l hf
    unfold construct_path
    rw [collectChain_fail hf _ (Nat.lt_succ_of_le (FailChain_length_le hf))]
  · intro lf l hc hf
    unfold construct_path
    rw [collectChain_eq hc _ (Nat.lt_succ_of_le (ChainL_length_le hc)),
      collectChain_fail hf _ (Nat.lt_succ_of_le (FailChain_length_le hf))]

/-- C1 amended, witness: a forward walk that fails two steps in
(2 → 5, and 5 has no entry), and a backward walk that fails after the
forward walk succeeded (2 → 1 = start, then 2 → 7 with 7 unmapped). -/
theorem c1_amended_conflation_witness :
    construct_path 2 [(2, 5)] [] 1 3 = some none ∧
    construct_path 2 [(2, 1)] [(2, 7)] 1 3 = some none :=
  ⟨(c1_amended_conflation 2 1 3 [(2, 5)] []).1 [5]
     (.there (by decide) rfl (.here (by decide) rfl)),
   (c1_amended_conflation 2 1 3 [(2, 1)] [(2, 7)]).2 [1] [7]
     (.step (by decide) rfl .stop)
     (.there (by decide) rfl (.here (by decide) rfl))⟩

theorem WalkLen_append1 {s : Store} {a b c1 : Int} {n : Nat}
    (h : WalkLen s a b n) (he : linked s b c1) : WalkLen s a c1 (n + 1) := by
  induction h with
  | refl => exact .step he (.refl _)
  | step hl hw ih => exact .step hl (ih he)

theorem WalkLen_split {s : Store} {a b : Int} {i j : Nat}
    (h : WalkLen s a b (i + j)) : ∃ y, WalkLen s a y i ∧ WalkLen s y b j := by
  induction i generalizing a with
  | zero => exact ⟨a, .refl a, by simpa using h⟩
  | succ i ih =>
    have h' : WalkLen s a b ((i + j) + 1) := by
      have : (i + 1) + j = (i + j) + 1 := by omega
      rw [this] at h
      exact h
    cases h' with
    | step hl hw =>
      obtain ⟨y, h1, h2⟩ := ih hw
      exact ⟨y, .step hl h1, h2⟩

theorem WalkLen_rev {s : Store} {a b : Int} {n : Nat}
    (hsym : ∀ u v, linked s u v → linked s v u)
    (h : WalkLen s a b n) : WalkLen s b a n := by
  induction h with
  | refl => exact .refl _
  | step hl hw ih => exact WalkLen_append1 ih (hsym _ _ hl)

/-- A list chained by the symmetric edge relation realizes a directed walk
once edges can be reversed. -/
theorem chain'_to_walk {s : Store} {p : List Int} {a b : Int}
    (hsym : ∀ u v, linked s u v → linked s v u)
    (hch : List.Chain' (eSym s) p)
    (hhead : p.head? = some a) (hlast : p.getLast? = some b) :
    WalkLen s a b (p.length - 1) := by
  induction p generalizing a with
  | nil => cases hhead
  | cons u rest ih =>
    injection hhead with hu
    subst hu
    cases rest with
    | nil =>
      simp only [List.getLast?_singleton] at hlast
      injection hlast with hb
      subst hb
      exact .refl u
    | cons w rest' =>
      have hch' := List.chain'_cons.1 hch
      have hlink : linked s u w := by
        rcases hch'.1 with h | h
        · exact h
        · exact hsym _ _ h
      have hw := ih hch'.2 rfl (by rw [List.getLast?_cons_cons] at hlast; exact hlast)
      simp only [List.length_cons] at hw ⊢
      simpa [Nat.succ_sub_one] using WalkLen.step hlink hw

theorem CorePost.trans {s : Store} {o : Int} {c : Nat} {other : List Int}
    {h h1 h2 : Half} (p1 : CorePost s o c other h h1)
    (p2 : CorePost s o c other h1 h2) : CorePost s o c other h h2 where
  vis_mono := fun v hv => p2.vis_mono v (p1.vis_mono v hv)
  lk_mono := fun v p hp => p2.lk_mono v p (p1.lk_mono v p hp)
  chain_keep := fun v l hl => p2.chain_keep v l (p1.chain_keep v l hl)
  nodup := p2.nodup
  queue_sub := p2.queue_sub
  entry := p2.entry
  chain_of := p2.chain_of
  disj := p2.disj


/-- Full specification of the neighbor loop: on completion, every listed
neighbor is visited, the state has only grown (new nodes appended to
visited, queue, and map), and the invariant components hold again; on an
early return, the invariant holds at the moment of the return and the
intersection node is the only node shared with the other side. -/
theorem visitNeighbors_spec {s : Store} {o cur : Int} {ns : List Int}
    {h : Half} {other : List Int} {c : Nat}
    (hgood : ∀ n ∈ ns, linked s cur n)
    (hcur : cur ∈ h.visited)
    (hcc : ∃ l, ChainL h.pmap o cur l ∧ l.length ≤ c)
    (ho : o ∈ h.visited)
    (hnd : h.visited.Nodup)
    (hqs : ∀ v ∈ h.queue, v ∈ h.visited)
    (hent : ∀ v p, lookupP h.pmap v = some p →
      v ∈ h.visited ∧ v ≠ o ∧ p ∈ h.visited ∧ p ≠ v ∧ linked s p v)
    (hch : ∀ v ∈ h.visited, ∃ l, ChainL h.pmap o v l ∧ l.length ≤ c + 1)
    (hdisj : ∀ v ∈ h.visited, v ∉ other) :
    (∀ h', visitNeighbors cur ns h other = .cont h' →
       CorePost s o c other h h' ∧ (∀ w ∈ ns, w ∈ h'.visited) ∧
       ∃ nl, h'.visited = nl ++ h.visited ∧
         h'.queue = h.queue ++ nl.reverse ∧ ∀ w ∈ nl, w ∈ ns) ∧
    (∀ x h', visitNeighbors cur ns h other = .found x h' →
       FoundPost s o c other x h') := by
  induction ns generalizing h with
  | nil =>
    constructor
    · intro h' hrun
      simp only [visitNeighbors] at hrun
      injection hrun with hh
      subst hh
      refine ⟨⟨fun v hv => hv, fun v p hp => hp, fun v l hl => hl, hnd, hqs,
        hent, hch, hdisj⟩, by simp, [], rfl, by simp, by simp⟩
    · intro x h' hrun
      simp only [visitNeighbors] at hrun
      cases hrun
  | cons n rest ih =>
    by_cases hn : n ∈ h.visited
    · have hred : visitNeighbors cur (n :: rest) h other =
          visitNeighbors cur rest h other := by
        simp only [visitNeighbors, hn, if_true]
      obtain ⟨ihc, ihf⟩ := ih (fun w hw => hgood w (List.mem_cons_of_mem _ hw))
        hcur hcc ho hnd hqs hent hch hdisj
      constructor
      · intro h' hrun
        rw [hred] at hrun
        obtain ⟨hcore, hcov, nl, hv, hq, hm⟩ := ihc h' hrun
        refine ⟨hcore, ?_, nl, hv, hq,
          fun w hw => List.mem_cons_of_mem _ (hm w hw)⟩
        intro w hw
        rcases List.mem_cons.1 hw with rfl | hw'
        · exact hcore.vis_mono w hn
        · exact hcov w hw'
      · intro x h' hrun
        rw [hred] at hrun
        exact ihf x h' hrun
    · -- n is fresh: it is inserted
      have hlink : linked s cur n := hgood n (List.mem_cons_self n rest)
      have hfresh : ∀ w q, lookupP h.pmap w = some q → w ≠ n :=
        fun w q hw hwn => hn (hwn ▸ (hent w q hw).1)
      obtain ⟨lcur, hlc, hlcle⟩ := hcc
      have hno : n ≠ o := fun hno => hn (hno ▸ ho)
      have hncur : n ≠ cur := fun hnc => hn (hnc ▸ hcur)
      -- the atomic update of lines 53-56 / 76-79
      set h1 : Half := ⟨n :: h.visited, h.queue ++ [n], (n, cur) :: h.pmap⟩
        with hh1
      have hent1 : ∀ v p, lookupP h1.pmap v = some p →
          v ∈ h1.visited ∧ v ≠ o ∧ p ∈ h1.visited ∧ p ≠ v ∧ linked s p v := by
        intro v p hvp
        by_cases hv : v = n
        · subst hv
          rw [show h1.pmap = (v, cur) :: h.pmap from rfl, lookupP_cons_self] at hvp
          injection hvp with hp
          subst hp
          exact ⟨List.mem_cons_self _ _, hno,
            List.mem_cons_of_mem _ hcur, hncur.symm, hlink⟩
        · rw [show h1.pmap = (n, cur) :: h.pmap from rfl,
            lookupP_cons_ne _ _ hv] at hvp
          obtain ⟨h1', h2', h3', h4', h5'⟩ := hent v p hvp
          exact ⟨List.mem_cons_of_mem _ h1', h2',
            List.mem_cons_of_mem _ h3', h4', h5'⟩
      have hkeep1 : ∀ v l, ChainL h.pmap o v l → ChainL h1.pmap o v l :=
        fun v l hl => ChainL_extend n cur hl hfresh
      have hch1 : ∀ v ∈ h1.visited,
          ∃ l, ChainL h1.pmap o v l ∧ l.length ≤ c + 1 := by
        intro v hv
        rcases List.mem_cons.1 hv with rfl | hv'
        · exact ⟨cur :: lcur,
            .step hno (lookupP_cons_self _ _ _) (hkeep1 _ _ hlc),
            by simpa using Nat.succ_le_succ hlcle⟩
        · obtain ⟨l, hl, hle⟩ := hch v hv'
          exact ⟨l, hkeep1 _ _ hl, hle⟩
      have hnd1 : h1.visited.Nodup := List.nodup_cons.2 ⟨hn, hnd⟩
      have hqs1 : ∀ v ∈ h1.queue, v ∈ h1.visited := by
        intro v hv
        rcases List.mem_append.1 hv with hv' | hv'
        · exact List.mem_cons_of_mem _ (hqs v hv')
        · simp only [List.mem_singleton] at hv'
          exact hv' ▸ List.mem_cons_self _ _
      by_cases hint : n ∈ other
      · -- intersection: the early return of lines 58-61 / 81-84
        have hred : visitNeighbors cur (n :: rest) h other = .found n h1 := by
          simp only [visitNeighbors, hn, if_false, hint, if_true]
        constructor
        · intro h' hrun
          rw [hred] at hrun
          cases hrun
        · intro x h' hrun
          rw [hred] at hrun
          injection hrun with hx hh'
          subst hx
          subst hh'
          exact ⟨hint, List.mem_cons_self _ _, hent1, hch1,
            fun v hv hvx => by
              rcases List.mem_cons.1 hv with rfl | hv'
              · exact absurd rfl hvx
              · exact hdisj v hv'⟩
      · -- no intersection: continue with the rest of the neighbors
        have hred : visitNeighbors cur (n :: rest) h other =
            visitNeighbors cur rest h1 other := by
          simp only [visitNeighbors, hn, if_false, hint]
        have hdisj1 : ∀ v ∈ h1.visited, v ∉ other := by
          intro v hv
          rcases List.mem_cons.1 hv with rfl | hv'
          · exact hint
          · exact hdisj v hv'
        obtain ⟨ihc, ihf⟩ := ih (fun w hw => hgood w (List.mem_cons_of_mem _ hw))
          (List.mem_cons_of_mem _ hcur) ⟨lcur, hkeep1 _ _ hlc, hlcle⟩
          (List.mem_cons_of_mem _ ho) hnd1 hqs1 hent1 hch1 hdisj1
        have hstep : CorePost s o c other h h1 :=
          ⟨fun v hv => List.mem_cons_of_mem _ hv,
           fun v p hp => by
             rw [show h1.pmap = (n, cur) :: h.pmap from rfl,
               lookupP_cons_ne _ _ (hfresh v p hp)]
             exact hp,
           hkeep1, hnd1, hqs1, hent1, hch1, hdisj1⟩
        constructor
        · intro h' hrun
          rw [hred] at hrun
          obtain ⟨hcore, hcov, nl, hv, hq, hm⟩ := ihc h' hrun
          refine ⟨hstep.trans hcore, ?_, nl ++ [n], ?_, ?_, ?_⟩
          · intro w hw
            rcases List.mem_cons.1 hw with rfl | hw'
            · exact hcore.vis_mono w (List.mem_cons_self _ _)
            · exact hcov w hw'
          · rw [hv]
            simp [hh1]
          · rw [hq]
            simp [hh1]
          · intro w hw
            rcases List.mem_append.1 hw with hw' | hw'
            · exact List.mem_cons_of_mem _ (hm w hw')
            · simp only [List.mem_singleton] at hw'
              exact hw' ▸ List.mem_cons_self _ _
        · intro x h' hrun
          rw [hred] at hrun
          exact ihf x h' hrun

/-- Specification of the movie loop: like `visitNeighbors_spec`, with the
completion case guaranteeing that every cast member of every listed movie
has been visited. -/
theorem visitMovies_spec {s : Store} {o cur : Int} {movies : List Int}
    {h : Half} {other : List Int} {c : Nat}
    (hgood : ∀ m ∈ movies, m ∈ s.moviesOf cur)
    (hcur : cur ∈ h.visited)
    (hcc : ∃ l, ChainL h.pmap o cur l ∧ l.length ≤ c)
    (ho : o ∈ h.visited)
    (hnd : h.visited.Nodup)
    (hqs : ∀ v ∈ h.queue, v ∈ h.visited)
    (hent : ∀ v p, lookupP h.pmap v = some p →
      v ∈ h.visited ∧ v ≠ o ∧ p ∈ h.visited ∧ p ≠ v ∧ linked s p v)
    (hch : ∀ v ∈ h.visited, ∃ l, ChainL h.pmap o v l ∧ l.length ≤ c + 1)
    (hdisj : ∀ v ∈ h.visited, v ∉ other) :
    (∀ h', visitMovies s cur movies h other = .cont h' →
       CorePost s o c other h h' ∧
       (∀ m ∈ movies, ∀ w ∈ s.actorsOf m, w ∈ h'.visited) ∧
       ∃ nl, h'.visited = nl ++ h.visited ∧
         h'.queue = h.queue ++ nl.reverse ∧ ∀ w ∈ nl, ∃ m, w ∈ s.actorsOf m) ∧
    (∀ x h', visitMovies s cur movies h other = .found x h' →
       FoundPost s o c other x h') := by
  induction movies generalizing h with
  | nil =>
    constructor
    · intro h' hrun
      simp only [visitMovies] at hrun
      injection hrun with hh
      subst hh
      refine ⟨⟨fun v hv => hv, fun v p hp => hp, fun v l hl => hl, hnd, hqs,
        hent, hch, hdisj⟩, by simp, [], rfl, by simp, by simp⟩
    · intro x h' hrun
      simp only [visitMovies] at hrun
      cases hrun
  | cons m rest ih =>
    have hgm : ∀ n ∈ s.actorsOf m, linked s cur n :=
      fun n hn => ⟨m, hgood m (List.mem_cons_self _ _), hn⟩
    obtain ⟨vnc, vnf⟩ := visitNeighbors_spec hgm hcur hcc ho hnd hqs hent hch hdisj
    constructor
    · intro h' hrun
      simp only [visitMovies] at hrun
      cases hv : visitNeighbors cur (s.actorsOf m) h other with
      | found x h1 =>
        rw [hv] at hrun
        cases hrun
      | cont h1 =>
        rw [hv] at hrun
        obtain ⟨hcore1, hcov1, nl1, hv1, hq1, hm1⟩ := vnc h1 hv
        obtain ⟨ihc, ihf⟩ := ih (fun w hw => hgood w (List.mem_cons_of_mem _ hw))
          (hcore1.vis_mono _ hcur)
          (by
            obtain ⟨l, hl, hle⟩ := hcc
            exact ⟨l, hcore1.chain_keep _ _ hl, hle⟩)
          (hcore1.vis_mono _ ho) hcore1.nodup hcore1.queue_sub hcore1.entry
          hcore1.chain_of hcore1.disj
        obtain ⟨hcore2, hcov2, nl2, hv2, hq2, hm2⟩ := ihc h' hrun
        refine ⟨hcore1.trans hcore2, ?_, nl2 ++ nl1, ?_, ?_, ?_⟩
        · intro m' hm' w hw
          rcases List.mem_cons.1 hm' with rfl | hmr
          · exact hcore2.vis_mono _ (hcov1 w hw)
          · exact hcov2 m' hmr w hw
        · rw [hv2, hv1, List.append_assoc]
        · rw [hq2, hq1, List.append_assoc, List.reverse_append]
        · intro w hw
          rcases List.mem_append.1 hw with hw' | hw'
          · exact hm2 w hw'
          · exact ⟨m, hm1 w hw'⟩
    · intro x h' hrun
      simp only [visitMovies] at hrun
      cases hv : visitNeighbors cur (s.actorsOf m) h other with
      | found x1 h1 =>
        rw [hv] at hrun
        injection hrun with hx hh'
        subst hx
        subst hh'
        exact vnf _ _ hv
      | cont h1 =>
        rw [hv] at hrun
        obtain ⟨hcore1, hcov1, nl1, hv1, hq1, hm1⟩ := vnc h1 hv
        obtain ⟨ihc, ihf⟩ := ih (fun w hw => hgood w (List.mem_cons_of_mem _ hw))
          (hcore1.vis_mono _ hcur)
          (by
            obtain ⟨l, hl, hle⟩ := hcc
            exact ⟨l, hcore1.chain_keep _ _ hl, hle⟩)
          (hcore1.vis_mono _ ho) hcore1.nodup hcore1.queue_sub hcore1.entry
          hcore1.chain_of hcore1.disj
        exact ihf x h' hrun

/-- Specification of one full level: on completion the ball of radius
`c + 1` around the origin is visited, every visited node is expanded or
pending, and the frontier consists of the unprocessed remainder plus the
newly discovered nodes; an early return satisfies `FoundPost`. -/
theorem processLevel_spec {s : Store} {o : Int} {count : Nat} {h : Half}
    {other : List Int} {c : Nat}
    (hcnt : count ≤ h.queue.length)
    (ho : o ∈ h.visited)
    (hnd : h.visited.Nodup)
    (hqs : ∀ v ∈ h.queue, v ∈ h.visited)
    (hent : ∀ v p, lookupP h.pmap v = some p →
      v ∈ h.visited ∧ v ≠ o ∧ p ∈ h.visited ∧ p ≠ v ∧ linked s p v)
    (hch : ∀ v ∈ h.visited, ∃ l, ChainL h.pmap o v l ∧ l.length ≤ c + 1)
    (hold : ∀ v ∈ h.queue.take count, ∃ l, ChainL h.pmap o v l ∧ l.length ≤ c)
    (hdisj : ∀ v ∈ h.visited, v ∉ other)
    (hexp : ∀ u ∈ h.visited, (∀ w, linked s u w → w ∈ h.visited) ∨ u ∈ h.queue)
    (hcov : ∀ v n, n ≤ c + 1 → WalkLen s o v n →
      v ∈ h.visited ∨ ∃ u ∈ h.queue.take count, linked s u v) :
    (∀ h', processLevel s count h other = .cont h' →
       CorePost s o c other h h' ∧
       (∀ v n, n ≤ c + 1 → WalkLen s o v n → v ∈ h'.visited) ∧
       (∀ u ∈ h'.visited, (∀ w, linked s u w → w ∈ h'.visited) ∨ u ∈ h'.queue) ∧
       ∃ nl, h'.visited = nl ++ h.visited ∧
         h'.queue = h.queue.drop count ++ nl.reverse ∧
         ∀ w ∈ nl, ∃ m, w ∈ s.actorsOf m) ∧
    (∀ x h', processLevel s count h other = .found x h' →
       FoundPost s o c other x h') := by
  induction count generalizing h with
  | zero =>
    constructor
    · intro h' hrun
      simp only [processLevel] at hrun
      injection hrun with hh
      subst hh
      refine ⟨⟨fun v hv => hv, fun v p hp => hp, fun v l hl => hl, hnd, hqs,
        hent, hch, hdisj⟩, ?_, hexp, [], rfl, by simp, by simp⟩
      intro v n hn hw
      rcases hcov v n hn hw with hv | ⟨u, hu, _⟩
      · exact hv
      · simp at hu
    · intro x h' hrun
      simp only [processLevel] at hrun
      cases hrun
  | succ c' ih =>
    cases hq : h.queue with
    | nil =>
      rw [hq] at hcnt
      simp at hcnt
    | cons cur q =>
      -- the state after the pop of line 48 / 71
      have hcur : cur ∈ h.visited := hqs cur (by rw [hq]; exact List.mem_cons_self _ _)
      have hcc : ∃ l, ChainL h.pmap o cur l ∧ l.length ≤ c := by
        refine hold cur ?_
        rw [hq]
        simp
      have hqs_mid : ∀ v ∈ q, v ∈ h.visited :=
        fun v hv => hqs v (by rw [hq]; exact List.mem_cons_of_mem _ hv)
      obtain ⟨vmc, vmf⟩ := visitMovies_spec (h := ⟨h.visited, q, h.pmap⟩)
        (fun m hm => hm) hcur hcc ho hnd hqs_mid hent hch hdisj
      have hred : processLevel s (c' + 1) h other =
          match visitMovies s cur (s.moviesOf cur) ⟨h.visited, q, h.pmap⟩ other with
          | .found x h1 => StepRes.found x h1
          | .cont h1 => processLevel s c' h1 other := by
        conv_lhs => rw [processLevel.eq_def, hq]
      constructor
      · intro h' hrun
        rw [hred] at hrun
        cases hv : visitMovies s cur (s.moviesOf cur) ⟨h.visited, q, h.pmap⟩ other with
        | found x h1 =>
          rw [hv] at hrun
          cases hrun
        | cont h1 =>
          rw [hv] at hrun
          obtain ⟨hcore1, hcov1, nl1, hv1, hq1, hm1⟩ := vmc h1 hv
          simp only at hv1 hq1
          have hlinkvis : ∀ w, linked s cur w → w ∈ h1.visited :=
            fun w ⟨m, hm, hw⟩ => hcov1 m hm w hw
          have hq' : c' ≤ q.length := by
            rw [hq] at hcnt
            simpa using hcnt
          have htake : h1.queue.take c' = q.take c' := by
            rw [hq1]
            exact List.take_append_of_le_length hq'
          obtain ⟨ihc, ihf⟩ := ih (h := h1)
            (by rw [hq1, List.length_append]; omega)
            (hcore1.vis_mono _ ho) hcore1.nodup hcore1.queue_sub hcore1.entry
            hcore1.chain_of
            (by
              intro v hv'
              rw [htake] at hv'
              obtain ⟨l, hl, hle⟩ := hold v (by
                rw [hq]
                simp only [List.take_succ_cons]
                exact List.mem_cons_of_mem _ hv')
              exact ⟨l, hcore1.chain_keep _ _ hl, hle⟩)
            hcore1.disj
            (by
              intro u hu
              rw [hv1] at hu
              rcases List.mem_append.1 hu with hu' | hu'
              · right
                rw [hq1]
                exact List.mem_append.2 (Or.inr (by simpa using hu'))
              · rcases hexp u hu' with hex | hqu
                · exact Or.inl (fun w hw => hcore1.vis_mono _ (hex w hw))
                · rw [hq] at hqu
                  rcases List.mem_cons.1 hqu with rfl | hqu'
                  · exact Or.inl hlinkvis
                  · right
                    rw [hq1]
                    exact List.mem_append.2 (Or.inl hqu'))
            (by
              intro v n hn hw
              rcases hcov v n hn hw with hvv | ⟨u, hu, hlu⟩
              · exact Or.inl (hcore1.vis_mono _ hvv)
              · rw [hq] at hu
                simp only [List.take_succ_cons] at hu
                rcases List.mem_cons.1 hu with rfl | hu'
                · exact Or.inl (hlinkvis v hlu)
                · exact Or.inr ⟨u, by rw [htake]; exact hu', hlu⟩)
          obtain ⟨hcore2, hball2, hexp2, nl2, hv2, hq2, hm2⟩ := ihc h' hrun
          have hcore0 : CorePost s o c other h ⟨h.visited, q, h.pmap⟩ :=
            ⟨fun v hv => hv, fun v p hp => hp, fun v l hl => hl, hnd, hqs_mid,
             hent, hch, hdisj⟩
          refine ⟨hcore0.trans (hcore1.trans hcore2), hball2, hexp2,
            nl2 ++ nl1, ?_, ?_, ?_⟩
          · rw [hv2, hv1, List.append_assoc]
          · rw [hq2, hq1]
            rw [List.drop_append_of_le_length hq']
            simp [List.reverse_append, List.append_assoc]
          · intro w hw
            rcases List.mem_append.1 hw with hw' | hw'
            · exact hm2 w hw'
            · exact hm1 w hw'
      · intro x h' hrun
        rw [hred] at hrun
        cases hv : visitMovies s cur (s.moviesOf cur) ⟨h.visited, q, h.pmap⟩ other with
        | found x1 h1 =>
          rw [hv] at hrun
          injection hrun with hx hh'
          subst hx
          subst hh'
          exact vmf _ _ hv
        | cont h1 =>
          rw [hv] at hrun
          obtain ⟨hcore1, hcov1, nl1, hv1, hq1, hm1⟩ := vmc h1 hv
          simp only at hv1 hq1
          have hlinkvis : ∀ w, linked s cur w → w ∈ h1.visited :=
            fun w ⟨m, hm, hw⟩ => hcov1 m hm w hw
          have hq' : c' ≤ q.length := by
            rw [hq] at hcnt
            simpa using hcnt
          have htake : h1.queue.take c' = q.take c' := by
            rw [hq1]
            exact List.take_append_of_le_length hq'
          obtain ⟨ihc, ihf⟩ := ih (h := h1)
            (by rw [hq1, List.length_append]; omega)
            (hcore1.vis_mono _ ho) hcore1.nodup hcore1.queue_sub hcore1.entry
            hcore1.chain_of
            (by
              intro v hv'
              rw [htake] at hv'
              obtain ⟨l, hl, hle⟩ := hold v (by
                rw [hq]
                simp only [List.take_succ_cons]
                exact List.mem_cons_of_mem _ hv')
              exact ⟨l, hcore1.chain_keep _ _ hl, hle⟩)
            hcore1.disj
            (by
              intro u hu
              rw [hv1] at hu
              rcases List.mem_append.1 hu with hu' | hu'
              · right
                rw [hq1]
                exact List.mem_append.2 (Or.inr (by simpa using hu'))
              · rcases hexp u hu' with hex | hqu
                · exact Or.inl (fun w hw => hcore1.vis_mono _ (hex w hw))
                · rw [hq] at hqu
                  rcases List.mem_cons.1 hqu with rfl | hqu'
                  · exact Or.inl hlinkvis
                  · right
                    rw [hq1]
                    exact List.mem_append.2 (Or.inl hqu'))
            (by
              intro v n hn hw
              rcases hcov v n hn hw with hvv | ⟨u, hu, hlu⟩
              · exact Or.inl (hcore1.vis_mono _ hvv)
              · rw [hq] at hu
                simp only [List.take_succ_cons] at hu
                rcases List.mem_cons.1 hu with rfl | hu'
                · exact Or.inl (hlinkvis v hlu)
                · exact Or.inr ⟨u, by rw [htake]; exact hu', hlu⟩)
          exact ihf x h' hrun

/-- Path assembly: given the two recorded parent chains of the intersection
node and well-formed, almost-disjoint visited sets, `construct_path`
succeeds and returns the joined path with the advertised endpoints, no
duplicate node, adjacent consecutive nodes, and length determined by the
two chain lengths. -/
theorem construct_path_spec {s : Store} {a b x : Int}
    {fp bp : List (Int × Int)} {lf lb : List Int} {VF VB : List Int}
    (hcf : ChainL fp a x lf) (hcb : ChainL bp b x lb)
    (hentf : ∀ v p, lookupP fp v = some p → p ∈ VF ∧ linked s p v)
    (hentb : ∀ v p, lookupP bp v = some p → p ∈ VB ∧ linked s p v)
    (hdisj : ∀ v ∈ VF, v ≠ x → v ∉ VB)
    (hlfVF : ∀ w ∈ lf, w ∈ VF) (hlbVB : ∀ w ∈ lb, w ∈ VB) :
    construct_path x fp bp a b = some (some ((x :: lf).reverse ++ lb)) ∧
    ((x :: lf).reverse ++ lb).head? = some a ∧
    ((x :: lf).reverse ++ lb).getLast? = some b ∧
    ((x :: lf).reverse ++ lb).Nodup ∧
    List.Chain' (eSym s) ((x :: lf).reverse ++ lb) ∧
    ((x :: lf).reverse ++ lb).length = lf.length + 1 + lb.length := by
  have hndf := ChainL_nodup hcf
  have hndb := ChainL_nodup hcb
  have hxlf : x ∉ lf := (List.nodup_cons.1 hndf).1
  have hxlb : x ∉ lb := (List.nodup_cons.1 hndb).1
  refine ⟨?_, ?_, ?_, ?_, ?_, ?_⟩
  · unfold construct_path
    rw [collectChain_eq hcf (fp.length + 1)
        (Nat.lt_succ_of_le (ChainL_length_le hcf)),
      collectChain_eq hcb (bp.length + 1)
        (Nat.lt_succ_of_le (ChainL_length_le hcb))]
  · rcases List.exists_cons_of_ne_nil
        (show (x :: lf).reverse ≠ [] by simp) with ⟨y, t, hyt⟩
    rw [hyt, List.cons_append, List.head?_cons, ← List.head?_cons (l := t), ← hyt,
      List.head?_reverse]
    exact ChainL_getLast hcf
  · cases hlb : lb with
    | nil =>
      cases hcb with
      | stop =>
        rw [List.append_nil, List.getLast?_reverse, List.head?_cons]
      | step hne hlk hc => cases hlb
    | cons q1 t1 =>
      subst hlb
      rw [List.getLast?_append_of_ne_nil _ (List.cons_ne_nil q1 t1)]
      have h2 := ChainL_getLast hcb
      rwa [List.getLast?_cons_cons] at h2
  · refine List.Nodup.append (List.nodup_reverse.2 hndf)
      ((List.nodup_cons.1 hndb).2) ?_
    intro w hwf hwb
    have hwxf : w ∈ x :: lf := List.mem_reverse.1 hwf
    rcases List.mem_cons.1 hwxf with rfl | hwlf
    · exact hxlb hwb
    · have hwVF : w ∈ VF := hlfVF w hwlf
      have hwx : w ≠ x := fun hwx => hxlf (hwx ▸ hwlf)
      exact hdisj w hwVF hwx (hlbVB w hwb)
  · have hchf : List.Chain' (eSym s) (x :: lf) :=
      (ChainL_chain' hcf).imp (fun u w hl => Or.inr (hentf u w hl).2)
    have hchb : List.Chain' (eSym s) (x :: lb) :=
      (ChainL_chain' hcb).imp (fun u w hl => Or.inr (hentb u w hl).2)
    refine List.Chain'.append ?_ hchb.tail ?_
    · rw [List.chain'_reverse]
      refine hchf.imp ?_
      intro u w hl
      rcases hl with hl | hl
      · exact Or.inr hl
      · exact Or.inl hl
    · intro y hy z hz
      rw [List.getLast?_reverse, List.head?_cons] at hy
      injection hy with hy
      subst hy
      cases hcb with
      | stop => cases hz
      | step hne hlk hc =>
        rw [List.head?_cons] at hz
        injection hz with hz
        subst hz
        exact Or.inr (hentb _ _ hlk).2
  · simp
    omega

/-- At the top of an outer iteration, every node one hop beyond the ball of
radius `c` is either already visited or reachable from a node still in the
frontier, which at that point is exactly the previous level. -/
theorem dirinv_cov {s : Store} {o : Int} {c : Nat} {h : Half}
    (hI : DirInv s o c h) :
    ∀ v n, n ≤ c + 1 → WalkLen s o v n →
      v ∈ h.visited ∨ ∃ u ∈ h.queue.take h.queue.length, linked s u v := by
  intro v n hn hw
  by_cases hnc : n ≤ c
  · exact Or.inl (hI.ball v n hnc hw)
  · have hn1 : n = c + 1 := by omega
    subst hn1
    obtain ⟨y, hy1, hy2⟩ := WalkLen_split (i := c) (j := 1) hw
    have hyv : y ∈ h.visited := hI.ball y c (le_refl _) hy1
    have hl : linked s y v := by
      cases hy2 with
      | step hl hw0 => cases hw0 with | refl => exact hl
    rcases hI.expanded y hyv with hex | hq
    · exact Or.inl (hex v hl)
    · exact Or.inr ⟨y, by rw [List.take_length]; exact hq, hl⟩

/-- The heart of the verification: whenever the outer loop reports an
intersection, reconstruction succeeds and yields a duplicate-free path from
`start` to `target` whose consecutive nodes are adjacent; and if the edge
relation is symmetric, the path is no longer than any walk between the two
endpoints (first-intersection optimality). -/
theorem bfsLoop_spec {s : Store} {a b : Int} {c : Nat} {fwd bwd : Half}
    {fuel : Nat} {x : Int} {fp bp : List (Int × Int)}
    (hF : DirInv s a c fwd) (hB : DirInv s b c bwd)
    (hdisj : ∀ v ∈ fwd.visited, v ∉ bwd.visited)
    (hrun : bfsLoop s fwd bwd fuel = .intersect x fp bp) :
    MapOk a fp ∧ MapOk b bp ∧
    ∃ p, construct_path x fp bp a b = some (some p) ∧
      p.head? = some a ∧ p.getLast? = some b ∧ p.Nodup ∧
      List.Chain' (eSym s) p ∧
      ((∀ u v, linked s u v → linked s v u) →
        ∀ n, WalkLen s a b n → p.length ≤ n + 1) := by
  induction fuel generalizing fwd bwd c with
  | zero => cases hrun
  | succ f ih =>
    simp only [bfsLoop] at hrun
    by_cases hguard : (fwd.queue.isEmpty || bwd.queue.isEmpty) = true
    · rw [if_pos hguard] at hrun
      cases hrun
    · rw [if_neg hguard] at hrun
      obtain ⟨plcF, plfF⟩ := processLevel_spec (s := s) (o := a) (h := fwd)
        (c := c) (le_refl _) hF.origin_mem hF.nodup
        hF.queue_sub hF.entry
        (fun v hv => (hF.chain_of v hv).imp
          (fun l hl => ⟨hl.1, hl.2.trans (Nat.le_succ _)⟩))
        (by
          rw [List.take_length]
          exact fun v hv => hF.chain_of v (hF.queue_sub v hv))
        hdisj hF.expanded (dirinv_cov hF)
      cases hpf : processLevel s fwd.queue.length fwd bwd.visited with
      | found xf hf =>
        rw [hpf] at hrun
        injection hrun with hx hfp hbp
        subst hx
        subst hfp
        subst hbp
        have hpost := plfF xf hf hpf
        obtain ⟨lf, hlf, hlfle⟩ := hpost.chain_of xf hpost.x_vis
        obtain ⟨lb, hlb, hlble⟩ := hB.chain_of xf hpost.x_other
        have hcps := construct_path_spec (s := s) hlf hlb
          (fun v p hp => ⟨(hpost.entry v p hp).2.2.1, (hpost.entry v p hp).2.2.2.2⟩)
          (fun v p hp => ⟨(hB.entry v p hp).2.2.1, (hB.entry v p hp).2.2.2.2⟩)
          hpost.disjx
          (ChainL_mem_subset hlf (fun q p hp => (hpost.entry q p hp).2.2.1))
          (ChainL_mem_subset hlb (fun q p hp => (hB.entry q p hp).2.2.1))
        refine ⟨fun v p hp => ⟨(hpost.entry v p hp).2.2.2.1.symm,
            (hpost.entry v p hp).2.1⟩,
          fun v p hp => ⟨(hB.entry v p hp).2.2.2.1.symm, (hB.entry v p hp).2.1⟩,
          _, hcps.1, hcps.2.1, hcps.2.2.1, hcps.2.2.2.1,
          hcps.2.2.2.2.1, ?_⟩
        intro hsym n hw
        rw [hcps.2.2.2.2.2]
        by_cases hn : n ≤ 2 * c
        · exfalso
          by_cases hnc : n ≤ c
          · exact hdisj b (hF.ball b n hnc hw) hB.origin_mem
          · obtain ⟨y, hy1, hy2⟩ := WalkLen_split (i := c) (j := n - c) (by
              have heq : c + (n - c) = n := by omega
              rw [heq]
              exact hw)
            exact hdisj y (hF.ball y c (le_refl _) hy1)
              (hB.ball y (n - c) (by omega) (WalkLen_rev hsym hy2))
        · omega
      | cont fwd' =>
        rw [hpf] at hrun
        dsimp only at hrun
        obtain ⟨hcoreF, hballF, hexpF, nlF, hvF, hqF, hmF⟩ := plcF fwd' hpf
        obtain ⟨plcB, plfB⟩ := processLevel_spec (s := s) (o := b) (h := bwd)
          (c := c) (le_refl _) hB.origin_mem hB.nodup
          hB.queue_sub hB.entry
          (fun v hv => (hB.chain_of v hv).imp
            (fun l hl => ⟨hl.1, hl.2.trans (Nat.le_succ _)⟩))
          (by
            rw [List.take_length]
            exact fun v hv => hB.chain_of v (hB.queue_sub v hv))
          (fun v hv hv' => hcoreF.disj v hv' hv)
          hB.expanded (dirinv_cov hB)
        cases hpb : processLevel s bwd.queue.length bwd fwd'.visited with
        | found xb hb =>
          rw [hpb] at hrun
          injection hrun with hx hfp hbp
          subst hx
          subst hfp
          subst hbp
          have hpost := plfB xb hb hpb
          obtain ⟨lf, hlf, hlfle⟩ := hcoreF.chain_of xb hpost.x_other
          obtain ⟨lb, hlb, hlble⟩ := hpost.chain_of xb hpost.x_vis
          have hcps := construct_path_spec (s := s) hlf hlb
            (fun v p hp => ⟨(hcoreF.entry v p hp).2.2.1, (hcoreF.entry v p hp).2.2.2.2⟩)
            (fun v p hp => ⟨(hpost.entry v p hp).2.2.1, (hpost.entry v p hp).2.2.2.2⟩)
            (fun v hvf hvx hvb => hpost.disjx v hvb hvx hvf)
            (ChainL_mem_subset hlf (fun q p hp => (hcoreF.entry q p hp).2.2.1))
            (ChainL_mem_subset hlb (fun q p hp => (hpost.entry q p hp).2.2.1))
          refine ⟨fun v p hp => ⟨(hcoreF.entry v p hp).2.2.2.1.symm,
              (hcoreF.entry v p hp).2.1⟩,
            fun v p hp => ⟨(hpost.entry v p hp).2.2.2.1.symm,
              (hpost.entry v p hp).2.1⟩,
            _, hcps.1, hcps.2.1, hcps.2.2.1, hcps.2.2.2.1,
            hcps.2.2.2.2.1, ?_⟩
          intro hsym n hw
          rw [hcps.2.2.2.2.2]
          by_cases hn : n ≤ 2 * c + 1
          · exfalso
            by_cases hnc : n ≤ c + 1
            · exact hcoreF.disj b (hballF b n hnc hw) hB.origin_mem
            · obtain ⟨y, hy1, hy2⟩ := WalkLen_split (i := c + 1) (j := n - (c + 1)) (by
                have heq : (c + 1) + (n - (c + 1)) = n := by omega
                rw [heq]
                exact hw)
              exact hcoreF.disj y (hballF y (c + 1) (le_refl _) hy1)
                (hB.ball y (n - (c + 1)) (by omega) (WalkLen_rev hsym hy2))
          · omega
        | cont bwd' =>
          rw [hpb] at hrun
          obtain ⟨hcoreB, hballB, hexpB, nlB, hvB, hqB, hmB⟩ := plcB bwd' hpb
          exact ih (c := c + 1)
            ⟨hcoreF.vis_mono _ hF.origin_mem, hcoreF.nodup, hcoreF.queue_sub,
              hcoreF.entry, hcoreF.chain_of, hballF, hexpF⟩
            ⟨hcoreB.vis_mono _ hB.origin_mem, hcoreB.nodup, hcoreB.queue_sub,
              hcoreB.entry, hcoreB.chain_of, hballB, hexpB⟩
            (fun v hvf hvb => hcoreB.disj v hvb hvf)
            hrun

/-- The initial state of a direction satisfies the invariant at level 0. -/
theorem initHalf_inv {s : Store} {o : Int} : DirInv s o 0 (initHalf o) := by
  refine ⟨List.mem_singleton_self o, List.nodup_singleton o,
    fun v hv => hv, fun v p hp => absurd hp (by simp [initHalf, lookupP]),
    ?_, ?_, ?_⟩
  · intro v hv
    simp only [initHalf, List.mem_singleton] at hv
    subst hv
    exact ⟨[], .stop, le_refl _⟩
  · intro v n hn hw
    interval_cases n
    cases hw with
    | refl => exact List.mem_singleton_self _
  · intro u hu
    simp only [initHalf, List.mem_singleton] at hu
    subst hu
    exact Or.inr (List.mem_singleton_self _)

/-- Everything `bfsLoop_spec` yields, at the level of the public search
function: any returned path starts at `start`, ends at `target`, repeats no
node, chains adjacent nodes, and (for a symmetric edge relation) is no
longer than any walk between the endpoints. -/
theorem find_path_spec {s : Store} {a b : Int} {fuel : Nat} {p : List Int}
    (hrun : find_actor_link_bidirectional_bfs s a b fuel = some (some p)) :
    p.head? = some a ∧ p.getLast? = some b ∧ p.Nodup ∧
    List.Chain' (eSym s) p ∧
    ((∀ u v, linked s u v → linked s v u) →
      ∀ n, WalkLen s a b n → p.length ≤ n + 1) := by
  unfold find_actor_link_bidirectional_bfs at hrun
  by_cases hab : a = b
  · rw [if_pos hab] at hrun
    injection hrun with hrun
    injection hrun with hrun
    subst hab
    subst hrun
    exact ⟨rfl, rfl, List.nodup_singleton _, List.chain'_singleton _,
      fun _ n _ => by simp⟩
  · rw [if_neg hab] at hrun
    cases hl : bfsLoop s (initHalf a) (initHalf b) fuel with
    | fuelOut => rw [hl] at hrun; cases hrun
    | noPath => rw [hl] at hrun; simp at hrun
    | intersect x fp bp =>
      rw [hl] at hrun
      dsimp only at hrun
      obtain ⟨_, _, p', hc, hh, hla, hnd, hch, hopt⟩ := bfsLoop_spec
        initHalf_inv initHalf_inv
        (by
          intro v hv
          simp only [initHalf, List.mem_singleton] at hv ⊢
          subst hv
          simpa using hab)
        hl
      rw [hrun] at hc
      injection hc with hc
      injection hc with hc
      subst hc
      exact ⟨hh, hla, hnd, hch, hopt⟩

/-- A successful `construct_path` walk really is a recorded parent chain. -/
theorem collectChain_sound {pmap : List (Int × Int)} {o : Int} :
    ∀ {v : Int} {l : List Int} {fuel : Nat},
      collectChain pmap o v fuel = some (some l) → ChainL pmap o v l := by
  intro v l fuel
  induction fuel generalizing v l with
  | zero => intro h; cases h
  | succ f ih =>
    intro h
    unfold collectChain at h
    by_cases hv : v = o
    · rw [if_pos hv] at h
      subst hv
      simp only [Option.some.injEq] at h
      subst h
      exact .stop
    · rw [if_neg hv] at h
      cases hl : lookupP pmap v with
      | none => rw [hl] at h; simp at h
      | some pp =>
        rw [hl] at h
        dsimp only at h
        cases hc : collectChain pmap o pp f with
        | none => rw [hc] at h; cases h
        | some oo =>
          rw [hc] at h
          cases oo with
          | none =>
            have h2 : (some none : Option (Option (List Int))) = some (some l) := h
            injection h2 with h3
            cases h3
          | some l' =>
            have h2 : some (some (pp :: l')) = some (some l) := h
            injection h2 with h3
            injection h3 with h4
            subst h4
            exact .step hv hl (ih hc)

/-- Inversion of a successful reconstruction into its two walks. -/
theorem construct_path_inv {x a b : Int} {fp bp : List (Int × Int)}
    {p : List Int} (h : construct_path x fp bp a b = some (some p)) :
    ∃ lf lb, collectChain fp a x (fp.length + 1) = some (some lf) ∧
      collectChain bp b x (bp.length + 1) = some (some lb) ∧
      p = (x :: lf).reverse ++ lb := by
  unfold construct_path at h
  cases hf : collectChain fp a x (fp.length + 1) with
  | none => rw [hf] at h; cases h
  | some of =>
    rw [hf] at h
    cases of with
    | none => simp at h
    | some lf =>
      dsimp only at h
      cases hb : collectChain bp b x (bp.length + 1) with
      | none => rw [hb] at h; simp at h
      | some ob =>
        rw [hb] at h
        cases ob with
        | none => simp at h
        | some lb =>
          dsimp only at h
          injection h with h
          injection h with h
          exact ⟨lf, lb, rfl, rfl, h.symm⟩

theorem storeA_coherent : Coherent storeA := by
  intro a m
  simp only [storeA]
  by_cases h1 : a = 1 <;> by_cases h2 : a = 2 <;> by_cases h3 : a = 3 <;>
    by_cases g1 : m = 10 <;> by_cases g2 : m = 11 <;>
      simp_all

/-- A coherent store's edge relation is symmetric. -/
theorem coherent_symm {s : Store} (hco : Coherent s) :
    ∀ u v, linked s u v → linked s v u := by
  intro u v ⟨m, hm, hv⟩
  exact ⟨m, (hco v m).2 hv, (hco u m).1 hm⟩

/-- C4: every path the search returns is non-empty, starts at the start
node, ends at the target node, and contains no repeated node. -/
theorem c4_path_structure (s : Store) (a b : Int) (fuel : Nat) (p : List Int)
    (hrun : find_actor_link_bidirectional_bfs s a b fuel = some (some p)) :
    p ≠ [] ∧ p.head? = some a ∧ p.getLast? = some b ∧ p.Nodup := by
  obtain ⟨h1, h2, h3, _, _⟩ := find_path_spec hrun
  refine ⟨?_, h1, h2, h3⟩
  intro hp
  rw [hp] at h1
  cases h1

/-- C4 witness: a concrete two-hop search on `storeA`. -/
theorem c4_path_structure_witness :
    ([1, 2, 3] : List Int) ≠ [] ∧
    ([1, 2, 3] : List Int).head? = some 1 ∧
    ([1, 2, 3] : List Int).getLast? = some 3 ∧
    ([1, 2, 3] : List Int).Nodup :=
  c4_path_structure storeA 1 3 5 [1, 2, 3] (by decide)

/-- C3: over a coherent store, every pair of consecutive nodes in a
returned path shares at least one movie. -/
theorem c3_validity (s : Store) (a b : Int) (fuel : Nat) (p : List Int)
    (hco : Coherent s)
    (hrun : find_actor_link_bidirectional_bfs s a b fuel = some (some p)) :
    List.Chain' (sharesMovie s) p := by
  obtain ⟨_, _, _, hch, _⟩ := find_path_spec hrun
  refine hch.imp ?_
  intro u v huv
  rcases huv with ⟨m, hm, hv⟩ | ⟨m, hm, hv⟩
  · exact ⟨m, hm, (hco v m).2 hv⟩
  · exact ⟨m, (hco u m).2 hv, hm⟩

/-- C3 witness: consecutive pairs of the concrete path share movies 10 and
11 respectively. -/
theorem c3_validity_witness :
    List.Chain' (sharesMovie storeA) [1, 2, 3] :=
  c3_validity storeA 1 3 5 [1, 2, 3] storeA_coherent (by decide)

/-- C2: over a coherent store, a returned path's hop count never exceeds
the length of any walk between the endpoints in the projected graph; in
particular it is at most the true shortest-path length. -/
theorem c2_optimality (s : Store) (a b : Int) (fuel : Nat) (p : List Int)
    (n : Nat) (hco : Coherent s)
    (hrun : find_actor_link_bidirectional_bfs s a b fuel = some (some p))
    (hw : WalkLen s a b n) : p.length ≤ n + 1 :=
  (find_path_spec hrun).2.2.2.2 (coherent_symm hco) n hw

/-- C2 witness: the two-hop walk 1—2—3 in `storeA` bounds the returned
three-node path. -/
theorem c2_optimality_witness :
    Coherent storeA ∧ WalkLen storeA 1 3 2 ∧
    ([1, 2, 3] : List Int).length ≤ 2 + 1 := by
  have h12 : linked storeA 1 2 := ⟨10, by decide, by decide⟩
  have h23 : linked storeA 2 3 := ⟨11, by decide, by decide⟩
  have hw : WalkLen storeA 1 3 2 := .step h12 (.step h23 (.refl 3))
  exact ⟨storeA_coherent, hw,
    c2_optimality storeA 1 3 5 [1, 2, 3] 2 storeA_coherent (by decide) hw⟩

/-- C9: the parent maps never key a node to itself and never key the
origin of their own direction: this holds of the initial empty maps, is
preserved by the unique insertion point (lines 53-56 / 76-79, which only
inserts an unvisited key with a visited parent), and consequently holds of
the maps handed to reconstruction at every intersection. -/
theorem c9_parent_map_invariant (s : Store) (a b : Int) (fuel : Nat)
    (hab : a ≠ b) :
    (MapOk a [] ∧ MapOk b []) ∧
    (∀ (o cur n : Int) (h : Half), cur ∈ h.visited → o ∈ h.visited →
      n ∉ h.visited → MapOk o h.pmap → MapOk o ((n, cur) :: h.pmap)) ∧
    (∀ x fp bp, bfsLoop s (initHalf a) (initHalf b) fuel = .intersect x fp bp →
      MapOk a fp ∧ MapOk b bp) := by
  have hempty : ∀ o : Int, MapOk o [] := by
    intro o v p hp
    simp [lookupP] at hp
  refine ⟨⟨hempty a, hempty b⟩, ?_, ?_⟩
  · intro o cur n h hcur ho hn hok v p hp
    by_cases hv : v = n
    · subst hv
      rw [lookupP_cons_self] at hp
      injection hp with hp
      subst hp
      exact ⟨fun hvc => hn (hvc ▸ hcur), fun hvo => hn (hvo ▸ ho)⟩
    · rw [lookupP_cons_ne _ _ hv] at hp
      exact hok v p hp
  · intro x fp bp hrun
    obtain ⟨hf, hb, _⟩ := bfsLoop_spec initHalf_inv initHalf_inv
      (by
        intro v hv
        simp only [initHalf, List.mem_singleton] at hv ⊢
        subst hv
        simpa using hab)
      hrun
    exact ⟨hf, hb⟩

/-- C9 witness: the insertion step and a concrete intersection run. -/
theorem c9_parent_map_invariant_witness :
    MapOk 1 [((2 : Int), (1 : Int))] ∧ MapOk 1 [(2, 1)] ∧ MapOk 3 [(2, 3)] :=
  have hstep := (c9_parent_map_invariant storeA 1 3 5 (by decide)).2.1
    1 1 2 (initHalf 1) (by decide) (by decide) (by decide)
    (fun v p hp => by simp [lookupP] at hp)
  have hend := (c9_parent_map_invariant storeA 1 3 5 (by decide)).2.2
    2 [(2, 1)] [(2, 3)] rfl
  ⟨hstep, hend.1, hend.2⟩

/-- C10: whenever the engine reports an intersection, both parent-map
walks terminate: the forward chain from the intersection reaches the start
node and the backward chain reaches the target node, each in finitely many
recorded steps, so reconstruction returns a path and its missing-entry
branches (`Ok(None)`) are unreachable on engine-produced maps. -/
theorem c10_reconstruction_total (s : Store) (a b : Int) (fuel : Nat)
    (x : Int) (fp bp : List (Int × Int)) (hab : a ≠ b)
    (hrun : bfsLoop s (initHalf a) (initHalf b) fuel = .intersect x fp bp) :
    (∃ lf, ChainL fp a x lf) ∧ (∃ lb, ChainL bp b x lb) ∧
    (∃ p, construct_path x fp bp a b = some (some p)) ∧
    construct_path x fp bp a b ≠ some none := by
  obtain ⟨_, _, p, hc, _⟩ := bfsLoop_spec initHalf_inv initHalf_inv
    (by
      intro v hv
      simp only [initHalf, List.mem_singleton] at hv ⊢
      subst hv
      simpa using hab)
    hrun
  obtain ⟨lf, lb, hf, hb, _⟩ := construct_path_inv hc
  exact ⟨⟨lf, collectChain_sound hf⟩, ⟨lb, collectChain_sound hb⟩,
    ⟨p, hc⟩, fun hn => by rw [hc] at hn; simp at hn⟩

/-- C10 witness: the concrete intersection at node 2 on `storeA`. -/
theorem c10_reconstruction_total_witness :
    bfsLoop storeA (initHalf 1) (initHalf 3) 5 =
      .intersect 2 [(2, 1)] [(2, 3)] ∧
    construct_path 2 [(2, 1)] [(2, 3)] 1 3 ≠ some none :=
  ⟨rfl,
   (c10_reconstruction_total storeA 1 3 5 2 [(2, 1)] [(2, 3)] (by decide)
     rfl).2.2.2⟩

/-- A walk starting inside a neighbor-closed set stays inside it. -/
theorem WalkLen_closed {s : Store} {V : List Int}
    (hcl : ∀ u ∈ V, ∀ w, linked s u w → w ∈ V) {o y : Int} {n : Nat}
    (hw : WalkLen s o y n) : o ∈ V → y ∈ V := by
  induction hw with
  | refl => exact fun h => h
  | step hl hw ih => exact fun h => ih (hcl _ h _ hl)

/-- If the loop exits with an empty frontier, the two endpoints are not
connected: the exhausted side's visited set is closed under the edge
relation and the two visited sets never intersect. -/
theorem bfsLoop_noPath_unconnected {s : Store} {a b : Int} {c : Nat}
    {fwd bwd : Half} {fuel : Nat}
    (hsym : ∀ u v, linked s u v → linked s v u)
    (hF : DirInv s a c fwd) (hB : DirInv s b c bwd)
    (hdisj : ∀ v ∈ fwd.visited, v ∉ bwd.visited)
    (hrun : bfsLoop s fwd bwd fuel = .noPath) :
    ¬∃ n, WalkLen s a b n := by
  induction fuel generalizing fwd bwd c with
  | zero => cases hrun
  | succ f ih =>
    simp only [bfsLoop] at hrun
    by_cases hguard : (fwd.queue.isEmpty || bwd.queue.isEmpty) = true
    · rcases Bool.or_eq_true_iff.1 hguard with hqe | hqe
      · have hqnil : fwd.queue = [] := List.isEmpty_iff.1 hqe
        have hcl : ∀ u ∈ fwd.visited, ∀ w, linked s u w → w ∈ fwd.visited := by
          intro u hu w hl
          rcases hF.expanded u hu with hex | hq
          · exact hex w hl
          · rw [hqnil] at hq
            cases hq
        rintro ⟨n, hw⟩
        exact hdisj b (WalkLen_closed hcl hw hF.origin_mem) hB.origin_mem
      · have hqnil : bwd.queue = [] := List.isEmpty_iff.1 hqe
        have hcl : ∀ u ∈ bwd.visited, ∀ w, linked s u w → w ∈ bwd.visited := by
          intro u hu w hl
          rcases hB.expanded u hu with hex | hq
          · exact hex w hl
          · rw [hqnil] at hq
            cases hq
        rintro ⟨n, hw⟩
        exact hdisj a hF.origin_mem
          (WalkLen_closed hcl (WalkLen_rev hsym hw) hB.origin_mem)
    · rw [if_neg hguard] at hrun
      obtain ⟨plcF, plfF⟩ := processLevel_spec (s := s) (o := a) (h := fwd)
        (c := c) (le_refl _) hF.origin_mem hF.nodup
        hF.queue_sub hF.entry
        (fun v hv => (hF.chain_of v hv).imp
          (fun l hl => ⟨hl.1, hl.2.trans (Nat.le_succ _)⟩))
        (by
          rw [List.take_length]
          exact fun v hv => hF.chain_of v (hF.queue_sub v hv))
        hdisj hF.expanded (dirinv_cov hF)
      cases hpf : processLevel s fwd.queue.length fwd bwd.visited with
      | found xf hf =>
        rw [hpf] at hrun
        cases hrun
      | cont fwd' =>
        rw [hpf] at hrun
        dsimp only at hrun
        obtain ⟨hcoreF, hballF, hexpF, nlF, hvF, hqF, hmF⟩ := plcF fwd' hpf
        obtain ⟨plcB, plfB⟩ := processLevel_spec (s := s) (o := b) (h := bwd)
          (c := c) (le_refl _) hB.origin_mem hB.nodup
          hB.queue_sub hB.entry
          (fun v hv => (hB.chain_of v hv).imp
            (fun l hl => ⟨hl.1, hl.2.trans (Nat.le_succ _)⟩))
          (by
            rw [List.take_length]
            exact fun v hv => hB.chain_of v (hB.queue_sub v hv))
          (fun v hv hv' => hcoreF.disj v hv' hv)
          hB.expanded (dirinv_cov hB)
        cases hpb : processLevel s bwd.queue.length bwd fwd'.visited with
        | found xb hb =>
          rw [hpb] at hrun
          cases hrun
        | cont bwd' =>
          rw [hpb] at hrun
          obtain ⟨hcoreB, hballB, hexpB, nlB, hvB, hqB, hmB⟩ := plcB bwd' hpb
          exact ih (c := c + 1)
            ⟨hcoreF.vis_mono _ hF.origin_mem, hcoreF.nodup, hcoreF.queue_sub,
              hcoreF.entry, hcoreF.chain_of, hballF, hexpF⟩
            ⟨hcoreB.vis_mono _ hB.origin_mem, hcoreB.nodup, hcoreB.queue_sub,
              hcoreB.entry, hcoreB.chain_of, hballB, hexpB⟩
            (fun v hvf hvb => hcoreB.disj v hvb hvf)
            hrun

/-- With enough fuel the loop always terminates: each iteration either
exits, reports an intersection, or strictly grows a visited set, and the
visited sets live inside the finite universe of cast members. -/
theorem bfsLoop_no_fuelOut {s : Store} {a b : Int} {univ : List Int}
    (hU : ∀ m w, w ∈ s.actorsOf m → w ∈ univ) :
    ∀ (N c : Nat) (fwd bwd : Half), DirInv s a c fwd → DirInv s b c bwd →
      (∀ v ∈ fwd.visited, v ∉ bwd.visited) →
      (∀ v ∈ fwd.visited, v = a ∨ v ∈ univ) →
      (∀ v ∈ bwd.visited, v = b ∨ v ∈ univ) →
      (univ.length + 1 - fwd.visited.length) +
        (univ.length + 1 - bwd.visited.length) + 2 ≤ N →
      bfsLoop s fwd bwd N ≠ .fuelOut := by
  intro N
  induction N with
  | zero => intro c fwd bwd _ _ _ _ _ hmeas; omega
  | succ N' ih =>
    intro c fwd bwd hF hB hdisj hVF hVB hmeas hrun
    simp only [bfsLoop] at hrun
    by_cases hguard : (fwd.queue.isEmpty || bwd.queue.isEmpty) = true
    · rw [if_pos hguard] at hrun
      cases hrun
    · rw [if_neg hguard] at hrun
      obtain ⟨plcF, plfF⟩ := processLevel_spec (s := s) (o := a) (h := fwd)
        (c := c) (le_refl _) hF.origin_mem hF.nodup
        hF.queue_sub hF.entry
        (fun v hv => (hF.chain_of v hv).imp
          (fun l hl => ⟨hl.1, hl.2.trans (Nat.le_succ _)⟩))
        (by
          rw [List.take_length]
          exact fun v hv => hF.chain_of v (hF.queue_sub v hv))
        hdisj hF.expanded (dirinv_cov hF)
      cases hpf : processLevel s fwd.queue.length fwd bwd.visited with
      | found xf hf =>
        rw [hpf] at hrun
        cases hrun
      | cont fwd' =>
        rw [hpf] at hrun
        dsimp only at hrun
        obtain ⟨hcoreF, hballF, hexpF, nlF, hvF, hqF, hmF⟩ := plcF fwd' hpf
        obtain ⟨plcB, plfB⟩ := processLevel_spec (s := s) (o := b) (h := bwd)
          (c := c) (le_refl _) hB.origin_mem hB.nodup
          hB.queue_sub hB.entry
          (fun v hv => (hB.chain_of v hv).imp
            (fun l hl => ⟨hl.1, hl.2.trans (Nat.le_succ _)⟩))
          (by
            rw [List.take_length]
            exact fun v hv => hB.chain_of v (hB.queue_sub v hv))
          (fun v hv hv' => hcoreF.disj v hv' hv)
          hB.expanded (dirinv_cov hB)
        cases hpb : processLevel s bwd.queue.length bwd fwd'.visited with
        | found xb hb =>
          rw [hpb] at hrun
          cases hrun
        | cont bwd' =>
          rw [hpb] at hrun
          obtain ⟨hcoreB, hballB, hexpB, nlB, hvB, hqB, hmB⟩ := plcB bwd' hpb
          have hVF' : ∀ v ∈ fwd'.visited, v = a ∨ v ∈ univ := by
            intro v hv
            rw [hvF] at hv
            rcases List.mem_append.1 hv with hv' | hv'
            · obtain ⟨m, hm⟩ := hmF v hv'
              exact Or.inr (hU m v hm)
            · exact hVF v hv'
          have hVB' : ∀ v ∈ bwd'.visited, v = b ∨ v ∈ univ := by
            intro v hv
            rw [hvB] at hv
            rcases List.mem_append.1 hv with hv' | hv'
            · obtain ⟨m, hm⟩ := hmB v hv'
              exact Or.inr (hU m v hm)
            · exact hVB v hv'
          by_cases hnl : nlF = []
          · -- the forward frontier is now empty: next iteration exits
            have hq0 : fwd'.queue = [] := by
              rw [hqF, hnl]
              simp
            obtain ⟨N'', rfl⟩ : ∃ N'', N' = N'' + 1 := ⟨N' - 1, by omega⟩
            simp only [bfsLoop] at hrun
            rw [if_pos (by simp [hq0])] at hrun
            cases hrun
          · -- the forward visited set strictly grew
            have hlenF : fwd'.visited.length ≤ univ.length + 1 := by
              have hsub : fwd'.visited ⊆ a :: univ := by
                intro v hv
                rcases hVF' v hv with rfl | hv'
                · exact List.mem_cons_self _ _
                · exact List.mem_cons_of_mem _ hv'
              have hle := (List.subperm_of_subset hcoreF.nodup hsub).length_le
              simpa using hle
            have hlenB : bwd'.visited.length ≤ univ.length + 1 := by
              have hsub : bwd'.visited ⊆ b :: univ := by
                intro v hv
                rcases hVB' v hv with rfl | hv'
                · exact List.mem_cons_self _ _
                · exact List.mem_cons_of_mem _ hv'
              have hle := (List.subperm_of_subset hcoreB.nodup hsub).length_le
              simpa using hle
            have hlF : fwd'.visited.length = nlF.length + fwd.visited.length := by
              rw [hvF, List.length_append]
            have hlB : bwd'.visited.length = nlB.length + bwd.visited.length := by
              rw [hvB, List.length_append]
            have hnlpos : 0 < nlF.length := List.length_pos.2 hnl
            exact ih (c + 1) fwd' bwd'
              ⟨hcoreF.vis_mono _ hF.origin_mem, hcoreF.nodup, hcoreF.queue_sub,
                hcoreF.entry, hcoreF.chain_of, hballF, hexpF⟩
              ⟨hcoreB.vis_mono _ hB.origin_mem, hcoreB.nodup, hcoreB.queue_sub,
                hcoreB.entry, hcoreB.chain_of, hballB, hexpB⟩
              (fun v hvf hvb => hcoreB.disj v hvb hvf)
              hVF' hVB' (by omega) hrun

theorem init_disj {a b : Int} (hab : a ≠ b) :
    ∀ v ∈ (initHalf a).visited, v ∉ (initHalf b).visited := by
  intro v hv
  simp only [initHalf, List.mem_singleton] at hv ⊢
  subst hv
  simpa using hab

/-- With enough fuel relative to the universe of cast members, the search
function never runs out of fuel (the Rust loop terminates). -/
theorem find_no_fuelOut {s : Store} {univ : List Int} {a b : Int} {fuel : Nat}
    (hU : ∀ m w, w ∈ s.actorsOf m → w ∈ univ)
    (hfuel : 2 * univ.length + 4 ≤ fuel) :
    find_actor_link_bidirectional_bfs s a b fuel ≠ none := by
  unfold find_actor_link_bidirectional_bfs
  by_cases hab : a = b
  · rw [if_pos hab]
    simp
  · rw [if_neg hab]
    cases hl : bfsLoop s (initHalf a) (initHalf b) fuel with
    | fuelOut =>
      refine absurd hl (bfsLoop_no_fuelOut hU fuel 0 _ _ initHalf_inv
        initHalf_inv (init_disj hab) ?_ ?_ ?_)
      · intro v hv
        simp only [initHalf, List.mem_singleton] at hv
        exact Or.inl hv
      · intro v hv
        simp only [initHalf, List.mem_singleton] at hv
        exact Or.inl hv
      · simp only [initHalf, List.length_singleton]
        omega
    | noPath => simp
    | intersect x fp bp =>
      obtain ⟨_, _, p, hc, _⟩ :=
        bfsLoop_spec initHalf_inv initHalf_inv (init_disj hab) hl
      simp [hc]

/-- A `NotFound` result implies the endpoints really are unconnected. -/
theorem find_none_unconnected {s : Store} {a b : Int} {fuel : Nat}
    (hsym : ∀ u v, linked s u v → linked s v u)
    (hrun : find_actor_link_bidirectional_bfs s a b fuel = some none) :
    ¬∃ n, WalkLen s a b n := by
  unfold find_actor_link_bidirectional_bfs at hrun
  by_cases hab : a = b
  · rw [if_pos hab] at hrun
    simp at hrun
  · rw [if_neg hab] at hrun
    cases hl : bfsLoop s (initHalf a) (initHalf b) fuel with
    | fuelOut => rw [hl] at hrun; cases hrun
    | noPath =>
      exact bfsLoop_noPath_unconnected hsym initHalf_inv initHalf_inv
        (init_disj hab) hl
    | intersect x fp bp =>
      rw [hl] at hrun
      dsimp only at hrun
      obtain ⟨_, _, p, hc, _⟩ :=
        bfsLoop_spec initHalf_inv initHalf_inv (init_disj hab) hl
      rw [hc] at hrun
      simp at hrun

/-- Unconnected endpoints and enough fuel force the `NotFound` result. -/
theorem find_unconnected_none {s : Store} {univ : List Int} {a b : Int}
    {fuel : Nat}
    (hU : ∀ m w, w ∈ s.actorsOf m → w ∈ univ)
    (hfuel : 2 * univ.length + 4 ≤ fuel)
    (hsym : ∀ u v, linked s u v → linked s v u)
    (hnc : ¬∃ n, WalkLen s a b n) :
    find_actor_link_bidirectional_bfs s a b fuel = some none := by
  by_cases hab : a = b
  · exact absurd ⟨0, hab ▸ WalkLen.refl a⟩ hnc
  · cases hr : find_actor_link_bidirectional_bfs s a b fuel with
    | none => exact absurd hr (find_no_fuelOut hU hfuel)
    | some r =>
      cases r with
      | none => rfl
      | some p =>
        obtain ⟨hh, hl, _, hch, _⟩ := find_path_spec hr
        exact absurd ⟨p.length - 1, chain'_to_walk hsym hch hh hl⟩ hnc

/-- C6: over a coherent store with a finite universe of cast members, if no
sequence of shared-movie hops connects the endpoints then (with enough fuel
for the loop to exhaust) the search returns `NotFound`; and conversely a
`NotFound` result is returned only when the frontiers exhausted without an
intersection, which implies the endpoints are unconnected. -/
theorem c6_notfound_complete (s : Store) (univ : List Int) (a b : Int)
    (hco : Coherent s) (hU : ∀ m w, w ∈ s.actorsOf m → w ∈ univ) :
    (¬(∃ n, WalkLen s a b n) → ∀ fuel, 2 * univ.length + 4 ≤ fuel →
      find_actor_link_bidirectional_bfs s a b fuel = some none) ∧
    (∀ fuel, find_actor_link_bidirectional_bfs s a b fuel = some none →
      ¬(∃ n, WalkLen s a b n)) := by
  constructor
  · intro hnc fuel hfuel
    exact find_unconnected_none hU hfuel (coherent_symm hco) hnc
  · intro fuel hrun
    exact find_none_unconnected (coherent_symm hco) hrun

theorem storeA_bounded :
    ∀ m w, w ∈ storeA.actorsOf m → w ∈ ([1, 2, 3] : List Int) := by
  intro m w hw
  simp only [storeA] at hw
  by_cases g1 : m = 10 <;> by_cases g2 : m = 11 <;> simp_all
  tauto

theorem storeA_14_unconnected : ¬∃ n, WalkLen storeA 1 4 n := by
  rintro ⟨n, hw⟩
  have h4 : (4 : Int) ∈ ([1, 2, 3] : List Int) :=
    WalkLen_closed (fun u _ w hl => by
      obtain ⟨m, _, hw'⟩ := hl
      exact storeA_bounded m w hw') hw (by decide)
  exact absurd h4 (by decide)

/-- C6 witness: actors 1 and 4 of `storeA` are unconnected, the search
returns `NotFound`, and from that result unconnectedness is recovered. -/
theorem c6_notfound_complete_witness :
    find_actor_link_bidirectional_bfs storeA 1 4 10 = some none ∧
    ¬(∃ n, WalkLen storeA 1 4 n) :=
  have h1 := (c6_notfound_complete storeA [1, 2, 3] 1 4 storeA_coherent
    storeA_bounded).1 storeA_14_unconnected 10 (by decide)
  ⟨h1, (c6_notfound_complete storeA [1, 2, 3] 1 4 storeA_coherent
    storeA_bounded).2 10 h1⟩

/-- C5: over a coherent store with a finite cast universe and enough fuel,
the searches in the two directions either both return `NotFound` or both
return paths of equal length. -/
theorem c5_symmetry (s : Store) (univ : List Int) (a b : Int) (fuel : Nat)
    (hco : Coherent s) (hU : ∀ m w, w ∈ s.actorsOf m → w ∈ univ)
    (hfuel : 2 * univ.length + 4 ≤ fuel) :
    (find_actor_link_bidirectional_bfs s a b fuel = some none ∧
     find_actor_link_bidirectional_bfs s b a fuel = some none) ∨
    (∃ p q, find_actor_link_bidirectional_bfs s a b fuel = some (some p) ∧
      find_actor_link_bidirectional_bfs s b a fuel = some (some q) ∧
      p.length = q.length) := by
  have hsym := coherent_symm hco
  have hcases : ∀ u v : Int,
      find_actor_link_bidirectional_bfs s u v fuel = some none ∨
      ∃ p, find_actor_link_bidirectional_bfs s u v fuel = some (some p) := by
    intro u v
    cases hr : find_actor_link_bidirectional_bfs s u v fuel with
    | none => exact absurd hr (find_no_fuelOut hU hfuel)
    | some r =>
      cases r with
      | none => exact Or.inl rfl
      | some p => exact Or.inr ⟨p, rfl⟩
  rcases hcases a b with hab1 | ⟨p, hp⟩
  · left
    refine ⟨hab1, ?_⟩
    have hnc := find_none_unconnected hsym hab1
    have hncr : ¬∃ n, WalkLen s b a n :=
      fun hx => hnc ⟨hx.choose, WalkLen_rev hsym hx.choose_spec⟩
    exact find_unconnected_none hU hfuel hsym hncr
  · rcases hcases b a with hba1 | ⟨q, hq⟩
    · exfalso
      have hnc := find_none_unconnected hsym hba1
      obtain ⟨hh, hl, _, hch, _⟩ := find_path_spec hp
      exact hnc ⟨p.length - 1, WalkLen_rev hsym (chain'_to_walk hsym hch hh hl)⟩
    · right
      refine ⟨p, q, hp, hq, ?_⟩
      obtain ⟨hhp, hlp, _, hchp, _⟩ := find_path_spec hp
      obtain ⟨hhq, hlq, _, hchq, _⟩ := find_path_spec hq
      have hwp : WalkLen s a b (p.length - 1) := chain'_to_walk hsym hchp hhp hlp
      have hwq : WalkLen s b a (q.length - 1) := chain'_to_walk hsym hchq hhq hlq
      have h1 : p.length ≤ (q.length - 1) + 1 :=
        (find_path_spec hp).2.2.2.2 hsym _ (WalkLen_rev hsym hwq)
      have h2 : q.length ≤ (p.length - 1) + 1 :=
        (find_path_spec hq).2.2.2.2 hsym _ (WalkLen_rev hsym hwp)
      have hppos : 0 < p.length := by
        cases p with
        | nil => cases hhp
        | cons y t => simp
      have hqpos : 0 < q.length := by
        cases q with
        | nil => cases hhq
        | cons y t => simp
      omega

/-- C5 witness: the searches 1→3 and 3→1 on `storeA`. -/
theorem c5_symmetry_witness :
    (find_actor_link_bidirectional_bfs storeA 1 3 10 = some none ∧
     find_actor_link_bidirectional_bfs storeA 3 1 10 = some none) ∨
    (∃ p q, find_actor_link_bidirectional_bfs storeA 1 3 10 = some (some p) ∧
      find_actor_link_bidirectional_bfs storeA 3 1 10 = some (some q) ∧
      p.length = q.length) :=
  c5_symmetry storeA [1, 2, 3] 1 3 10 storeA_coherent storeA_bounded
    (by decide)
